import Mathlib

/-
Verification development for the image-analysis pipeline of the
wall-visualization tool (source: src/lib/ai-models.ts).

The JavaScript source is shallowly embedded as follows.  Pixel buffers are
total functions from byte index to byte value (reads that the source never
performs out of bounds are therefore modelled harmlessly), or lists of bytes
where a length is needed.  JavaScript numbers are modelled as exact rationals;
machine integers stay in Nat or Int.  The random centroid initialisation of
the k-means clusterer is modelled by passing the initial centroid list as an
explicit parameter, quantified over all draws from the sample set.  Euclidean
distances are compared through their squares, which induces the same order
since the square root is strictly monotone.
-/

namespace AIModels

/-- JavaScript Math.round: round half toward positive infinity. -/
def jsRound (x : ℚ) : ℤ := ⌊x + 1/2⌋

/-- Storing into a Uint8ClampedArray: clamp to the byte range and round,
halves to even, per the ECMAScript conversion. -/
def clampByte (q : ℚ) : ℕ :=
  let f := ⌊q⌋
  let frac := q - f
  let r : ℤ :=
    if frac < 1/2 then f
    else if 1/2 < frac then f + 1
    else if Even f then f else f + 1
  (max 0 (min 255 r)).toNat

/-- Nearest natural number to the real square root of S.  This is the value a
Uint8ClampedArray stores for Math.sqrt S, since the correctly rounded double
square root of a small integer never lands exactly on a half. -/
def natSqrtNearest (S : ℕ) : ℕ :=
  let r := Nat.sqrt S
  if S ≤ r * r + r then r else r + 1

/-- An RGB triple, channels as natural numbers. -/
abbrev RGBColor := ℕ × ℕ × ℕ

/-! ## Color conversion utilities (rgbToHex, rgbToHsl, hslToRgb) -/

/-- Hex digit characters, lowercase as produced by Number.toString(16). -/
def hexDigitChar (n : ℕ) : Char :=
  if n < 10 then Char.ofNat (48 + n) else Char.ofNat (87 + n)

/-- Digits of n in base 16, most significant first: JavaScript
Number.toString(16) for a nonnegative integer. -/
def toHexDigits (n : ℕ) : List Char :=
  if _h : n < 16 then [hexDigitChar n]
  else toHexDigits (n / 16) ++ [hexDigitChar (n % 16)]
decreasing_by
  exact Nat.div_lt_self (Nat.pos_of_ne_zero (fun hz => _h (hz ▸ by norm_num))) (by norm_num)

/-- rgbToHex from the source: the template literal around
((1 shl 24) + (r shl 16) + (g shl 8) + b).toString(16).slice(1). -/
def rgbToHex (c : RGBColor) : String :=
  String.mk ('#' :: (toHexDigits (2^24 + c.1 * 2^16 + c.2.1 * 2^8 + c.2.2)).drop 1)

/-- rgbToHsl from the source.  Input channels are numbers; the result is the
triple h times 360, s times 100, l times 100. -/
def rgbToHsl (r g b : ℚ) : ℚ × ℚ × ℚ :=
  let r := r / 255
  let g := g / 255
  let b := b / 255
  let mx := max r (max g b)
  let mn := min r (min g b)
  let l := (mx + mn) / 2
  if mx = mn then (0, 0, l * 100)
  else
    let d := mx - mn
    let s := if 1/2 < l then d / (2 - mx - mn) else d / (mx + mn)
    let h :=
      (if mx = r then (g - b) / d + (if g < b then 6 else 0)
       else if mx = g then (b - r) / d + 2
       else (r - g) / d + 4) / 6
    (h * 360, s * 100, l * 100)

/-- The hue2rgb helper of hslToRgb. -/
def hue2rgb (p q t : ℚ) : ℚ :=
  let t1 := if t < 0 then t + 1 else t
  let t2 := if 1 < t1 then t1 - 1 else t1
  if t2 < 1/6 then p + (q - p) * 6 * t2
  else if t2 < 1/2 then q
  else if t2 < 2/3 then p + (q - p) * (2/3 - t2) * 6
  else p

/-- hslToRgb from the source, returning the three rounded channels. -/
def hslToRgb (h s l : ℚ) : ℤ × ℤ × ℤ :=
  let h := h / 360
  let s := s / 100
  let l := l / 100
  if s = 0 then (jsRound (l * 255), jsRound (l * 255), jsRound (l * 255))
  else
    let q := if l < 1/2 then l * (1 + s) else l + s - l * s
    let p := 2 * l - q
    (jsRound (hue2rgb p q (h + 1/3) * 255),
     jsRound (hue2rgb p q h * 255),
     jsRound (hue2rgb p q (h - 1/3) * 255))

/-! ## K-means clustering (extractColors, kMeansClustering) -/

/-- Square of the Euclidean distance between two colors.  The source compares
Math.sqrt of this quantity; comparing the squares gives the same order. -/
def euclidSq (a c : RGBColor) : ℤ :=
  ((a.1 : ℤ) - c.1)^2 + ((a.2.1 : ℤ) - c.2.1)^2 + ((a.2.2 : ℤ) - c.2.2)^2

/-- Loop of the nearest-centroid search: index i of the next centroid to
examine, current best distance and best index.  Strict improvement only, as
in the source, so the first index attaining the minimum wins. -/
def nearestGo (p : RGBColor) : List RGBColor → ℕ → ℤ → ℕ → ℕ
  | [], _, _, best => best
  | c :: rest, i, bestD, best =>
      if euclidSq p c < bestD then nearestGo p rest (i+1) (euclidSq p c) i
      else nearestGo p rest (i+1) bestD best

/-- Index of the nearest centroid to p.  The source seeds the search with
distance Infinity, so the first centroid always becomes the initial best. -/
def nearestCentroid (cs : List RGBColor) (p : RGBColor) : ℕ :=
  match cs with
  | [] => 0
  | c :: rest => nearestGo p rest 1 (euclidSq p c) 0

/-- Assignment phase of one k-means iteration: push every data point onto the
cluster of its nearest centroid, in data order. -/
def assignClusters (cs : List RGBColor) (data : List RGBColor) : List (List RGBColor) :=
  data.foldl
    (fun cls pt =>
      cls.set (nearestCentroid cs pt) (cls.getD (nearestCentroid cs pt) [] ++ [pt]))
    (List.replicate cs.length [])

/-- Math.round (s / n) for natural s and positive n, computed without
rationals: the floor of (2s + n) / (2n). -/
def roundHalfDiv (s n : ℕ) : ℕ := (2 * s + n) / (2 * n)

/-- Channel-wise rounded arithmetic mean of a cluster. -/
def roundedMean (cl : List RGBColor) : RGBColor :=
  (roundHalfDiv (cl.map (·.1)).sum cl.length,
   roundHalfDiv (cl.map (·.2.1)).sum cl.length,
   roundHalfDiv (cl.map (·.2.2)).sum cl.length)

/-- Update phase of one k-means iteration: replace each centroid by the
rounded mean of its cluster, keeping it unchanged when the cluster is empty. -/
def updateCentroids (cs : List RGBColor) (clusters : List (List RGBColor)) : List RGBColor :=
  (List.range cs.length).map fun i =>
    let cl := clusters.getD i []
    if cl.isEmpty then cs.getD i (0, 0, 0) else roundedMean cl

/-- One full k-means iteration: assignment, then centroid update. -/
def kMeansStep (data : List RGBColor) (cs : List RGBColor) : List RGBColor :=
  updateCentroids cs (assignClusters cs data)

/-- kMeansClustering from the source: exactly 10 iterations, no convergence
check.  The random initial centroids are the explicit parameter init. -/
def kMeansClustering (data : List RGBColor) (init : List RGBColor) : List RGBColor :=
  (kMeansStep data)^[10] init

/-- Number of samples taken from a byte buffer of the given length at a
stride of 40 bytes. -/
def numSamples (len : ℕ) : ℕ := (len + 39) / 40

/-- Sampling loop of extractColors: every 40th byte starts an RGB sample. -/
def sampleColors (data : List ℕ) : List RGBColor :=
  (List.range (numSamples data.length)).map fun j =>
    (data.getD (40*j) 0, data.getD (40*j+1) 0, data.getD (40*j+2) 0)

/-- extractColors from the source: sample the buffer, then cluster. -/
def extractColors (data : List ℕ) (init : List RGBColor) : List RGBColor :=
  kMeansClustering (sampleColors data) init

/-- findDominantColor from the source: the first color of the list. -/
def findDominantColor (cs : List RGBColor) : RGBColor := cs.headD (0, 0, 0)

/-- Color harmony triple of hex strings. -/
structure ColorHarmony where
  complementary : String
  analogous : List String
  triadic : List String
deriving DecidableEq, Repr

/-- Conversion shim: hslToRgb returns integers, rgbToHex consumes naturals. -/
def rgbToHexZ (c : ℤ × ℤ × ℤ) : String := rgbToHex (c.1.toNat, c.2.1.toNat, c.2.2.toNat)

/-- generateColorHarmony from the source. -/
def generateColorHarmony (c : RGBColor) : ColorHarmony :=
  let hsl := rgbToHsl c.1 c.2.1 c.2.2
  ⟨rgbToHexZ (hslToRgb (hsl.1 + 180) hsl.2.1 hsl.2.2),
   [rgbToHexZ (hslToRgb (hsl.1 + 30) hsl.2.1 hsl.2.2),
    rgbToHexZ (hslToRgb (hsl.1 - 30) hsl.2.1 hsl.2.2)],
   [rgbToHexZ (hslToRgb (hsl.1 + 120) hsl.2.1 hsl.2.2),
    rgbToHexZ (hslToRgb (hsl.1 + 240) hsl.2.1 hsl.2.2)]⟩

/-- Result record of extractColorPalette. -/
structure ColorPaletteResult where
  colors : List String
  dominantColor : String
  harmony : ColorHarmony
deriving DecidableEq, Repr

/-- extractColorPalette from the source, over an already decoded byte buffer
and an explicit initial-centroid draw. -/
def extractColorPalette (data : List ℕ) (init : List RGBColor) : ColorPaletteResult :=
  let cs := extractColors data init
  let dom := findDominantColor cs
  ⟨cs.map rgbToHex, rgbToHex dom, generateColorHarmony dom⟩

/-! ## Wall segmentation pipeline -/

/-- Grayscale conversion of pixel i of an RGBA byte buffer, stored into a
Uint8ClampedArray: luminance 0.299 R + 0.587 G + 0.114 B. -/
def grayByte (buf : ℕ → ℕ) (i : ℕ) : ℕ :=
  clampByte ((299 * buf (4*i) + 587 * buf (4*i+1) + 114 * buf (4*i+2) : ℚ) / 1000)

/-- Horizontal Sobel response at interior pixel x y.  With idx equal to
y w + x, the source reads offsets idx plus or minus 1 and plus or minus w;
for x and y at least 1 these are the pixel coordinates used here. -/
def sobelGx (g : ℕ → ℕ) (w x y : ℕ) : ℤ :=
  ((g ((y-1)*w + (x-1)) : ℤ) + 2 * g (y*w + (x-1)) + g ((y+1)*w + (x-1)))
  - ((g ((y-1)*w + (x+1)) : ℤ) + 2 * g (y*w + (x+1)) + g ((y+1)*w + (x+1)))

/-- Vertical Sobel response at interior pixel x y. -/
def sobelGy (g : ℕ → ℕ) (w x y : ℕ) : ℤ :=
  ((g ((y-1)*w + (x-1)) : ℤ) + 2 * g ((y-1)*w + x) + g ((y-1)*w + (x+1)))
  - ((g ((y+1)*w + (x-1)) : ℤ) + 2 * g ((y+1)*w + x) + g ((y+1)*w + (x+1)))

/-- Stored edge value at an interior pixel: Math.min 255 of the magnitude
Math.sqrt (gx squared + gy squared), as a Uint8ClampedArray byte. -/
def edgeMagnitude (g : ℕ → ℕ) (w x y : ℕ) : ℕ :=
  min 255 (natSqrtNearest ((sobelGx g w x y).natAbs ^ 2 + (sobelGy g w x y).natAbs ^ 2))

/-- detectEdges from the source: a w times h map, zero on the outermost
border, Sobel magnitude on interior pixels. -/
def detectEdges (g : ℕ → ℕ) (w h : ℕ) : List ℕ :=
  (List.range (w * h)).map fun idx =>
    let x := idx % w
    let y := idx / w
    if 1 ≤ x ∧ x + 1 < w ∧ 1 ≤ y ∧ y + 1 < h then edgeMagnitude g w x y else 0

/-- An axis-aligned candidate rectangle. -/
structure Rect where
  x : ℕ
  y : ℕ
  width : ℕ
  height : ℕ
deriving DecidableEq, Repr

/-- findRectangleAtPoint from the source: walk right along the row and down
along the column, at most 200 pixels, until the edge magnitude exceeds 100;
the crossing distances become width and height (0 when no crossing), and a
box is produced only when both exceed 50. -/
def findRectangleAtPoint (edges : ℕ → ℕ) (startX startY w h : ℕ) : Option Rect :=
  let maxWidth :=
    match (List.range' startX (min (startX + 200) w - startX)).find?
        (fun x => 100 < edges (startY * w + x)) with
    | some x => x - startX
    | none => 0
  let maxHeight :=
    match (List.range' startY (min (startY + 200) h - startY)).find?
        (fun y => 100 < edges (y * w + startX)) with
    | some y => y - startY
    | none => 0
  if 50 < maxWidth ∧ 50 < maxHeight then some ⟨startX, startY, maxWidth, maxHeight⟩
  else none

/-- findRectangles from the source: seeds on a fixed 50 pixel grid, keeping
only point results whose width and height both exceed 100. -/
def findRectangles (edges : ℕ → ℕ) (w h : ℕ) : List Rect :=
  (List.range' 0 ((h + 49) / 50) 50).flatMap fun y =>
    (List.range' 0 ((w + 49) / 50) 50).filterMap fun x =>
      match findRectangleAtPoint edges x y w h with
      | some r => if 100 < r.width ∧ 100 < r.height then some r else none
      | none => none

/-- A wall segment as produced by detectWallSegments.  Fields are rationals
because the fallback segment carries fractional coordinates. -/
structure WallSegment where
  x : ℚ
  y : ℚ
  width : ℚ
  height : ℚ
  confidence : ℚ
deriving DecidableEq, Repr

/-- Wall-likeness test of one pixel in validateWallCandidate: brightness
(r + g + b) / 3 strictly between 50 and 200, and channel spread
max minus min strictly below 50. -/
def isWallPixel (buf : ℕ → ℕ) (w x y : ℕ) : Bool :=
  let idx := (y * w + x) * 4
  let r := buf idx
  let g := buf (idx + 1)
  let b := buf (idx + 2)
  let brightness : ℚ := (r + g + b : ℚ) / 3
  50 < brightness ∧ brightness < 200 ∧ max r (max g b) - min r (min g b) < 50

/-- validateWallCandidate from the source: the fraction of wall-like pixels
in the candidate box clipped to the image, 0 for an empty box. -/
def validateWallCandidate (buf : ℕ → ℕ) (rect : Rect) (w h : ℕ) : ℚ :=
  let ys := List.range' rect.y (min (rect.y + rect.height) h - rect.y)
  let xs := List.range' rect.x (min (rect.x + rect.width) w - rect.x)
  let stats := ys.foldl
    (fun acc y => xs.foldl
      (fun acc2 x => ((if isWallPixel buf w x y then acc2.1 + 1 else acc2.1), acc2.2 + 1))
      acc)
    ((0, 0) : ℕ × ℕ)
  if 0 < stats.2 then (stats.1 : ℚ) / stats.2 else 0

/-- Number of wall-like pixels in the clipped candidate box, written as an
independent count rather than as the accumulator loop of the source. -/
def wallPixelCount (buf : ℕ → ℕ) (rect : Rect) (w h : ℕ) : ℕ :=
  ((List.range' rect.y (min (rect.y + rect.height) h - rect.y)).map fun y =>
    (List.range' rect.x (min (rect.x + rect.width) w - rect.x)).countP fun x =>
      isWallPixel buf w x y).sum

/-- Number of pixels in the clipped candidate box. -/
def boxPixelTotal (rect : Rect) (w h : ℕ) : ℕ :=
  (min (rect.y + rect.height) h - rect.y) * (min (rect.x + rect.width) w - rect.x)

/-- Fraction of wall-like pixels in the clipped candidate box. -/
def wallFraction (buf : ℕ → ℕ) (rect : Rect) (w h : ℕ) : ℚ :=
  if 0 < boxPixelTotal rect w h
  then (wallPixelCount buf rect w h : ℚ) / boxPixelTotal rect w h
  else 0

/-- Filtering loop of detectWallSegments: keep a candidate exactly when its
validation confidence strictly exceeds 0.3. -/
def filterCandidates (buf : ℕ → ℕ) (w h : ℕ) (rects : List Rect) : List WallSegment :=
  rects.filterMap fun r =>
    let c := validateWallCandidate buf r w h
    if 3/10 < c then some ⟨r.x, r.y, r.width, r.height, c⟩ else none

/-- Fallback segment synthesized when no candidate survives validation. -/
def fallbackSegment (w h : ℕ) : WallSegment :=
  ⟨(w : ℚ) * (1/10), (h : ℚ) * (2/10), (w : ℚ) * (8/10), (h : ℚ) * (6/10), 1/2⟩

/-- Segments that survive validation in detectWallSegments: grayscale, Sobel
edges, rectangle candidates, then the validation filter. -/
def acceptedSegments (buf : ℕ → ℕ) (w h : ℕ) : List WallSegment :=
  filterCandidates buf w h
    (findRectangles (fun i => (detectEdges (grayByte buf) w h).getD i 0) w h)

/-- detectWallSegments from the source: the surviving segments, or the
fallback segment when nothing survives. -/
def detectWallSegments (buf : ℕ → ℕ) (w h : ℕ) : List WallSegment :=
  if (acceptedSegments buf w h).isEmpty then [fallbackSegment w h]
  else acceptedSegments buf w h

/-- Lowercase hex digit test, used to state the shape of palette entries. -/
def isHexDigitChar (c : Char) : Bool :=
  (('0' ≤ c ∧ c ≤ '9') ∨ ('a' ≤ c ∧ c ≤ 'f'))

/-- calculateConfidence from the source: arithmetic mean of the segment
confidences, 0 for an empty list. -/
def calculateConfidence (segs : List WallSegment) : ℚ :=
  if segs.isEmpty then 0 else (segs.map (·.confidence)).sum / segs.length

/-- Confidence field of the result of processWallSegmentation. -/
def wallSegmentationConfidence (buf : ℕ → ℕ) (w h : ℕ) : ℚ :=
  calculateConfidence (detectWallSegments buf w h)

/-! ## Counting lemmas for the wall validator -/

theorem foldl_count_inner (p : ℕ → Bool) (xs : List ℕ) (acc : ℕ × ℕ) :
    xs.foldl (fun acc2 x => ((if p x then acc2.1 + 1 else acc2.1), acc2.2 + 1)) acc
      = (acc.1 + xs.countP p, acc.2 + xs.length) := by
  induction xs generalizing acc with
  | nil => simp
  | cons x xs ih =>
    rw [List.foldl_cons, ih]
    rcases acc with ⟨a, b⟩
    by_cases hx : p x
    · simp [hx, List.countP_cons, Nat.add_assoc, Nat.add_comm 1]
    · simp [hx, List.countP_cons, Nat.add_assoc, Nat.add_comm 1]

theorem foldl_count_outer (q : ℕ → ℕ → Bool) (xs : List ℕ) (ys : List ℕ) (acc : ℕ × ℕ) :
    ys.foldl (fun acc y => xs.foldl
        (fun acc2 x => ((if q y x then acc2.1 + 1 else acc2.1), acc2.2 + 1)) acc) acc
      = (acc.1 + (ys.map fun y => xs.countP (q y)).sum, acc.2 + ys.length * xs.length) := by
  induction ys generalizing acc with
  | nil => simp
  | cons y ys ih =>
    rw [List.foldl_cons, ih, foldl_count_inner]
    simp [Nat.add_assoc, Nat.succ_mul, Nat.add_comm xs.length]

theorem validateWallCandidate_eq_wallFraction (buf : ℕ → ℕ) (rect : Rect) (w h : ℕ) :
    validateWallCandidate buf rect w h = wallFraction buf rect w h := by
  simp only [validateWallCandidate, wallFraction, wallPixelCount, boxPixelTotal]
  rw [foldl_count_outer (fun y x => isWallPixel buf w x y)]
  simp [Nat.mul_comm]

theorem wallPixelCount_le_total (buf : ℕ → ℕ) (rect : Rect) (w h : ℕ) :
    wallPixelCount buf rect w h ≤ boxPixelTotal rect w h := by
  unfold wallPixelCount boxPixelTotal
  set ys := List.range' rect.y (min (rect.y + rect.height) h - rect.y) with hys
  set xs := List.range' rect.x (min (rect.x + rect.width) w - rect.x) with hxs
  calc (ys.map fun y => xs.countP fun x => isWallPixel buf w x y).sum
      ≤ (ys.map fun _ => xs.length).sum := by
        apply List.sum_le_sum
        intro y _
        exact List.countP_le_length _
    _ = ys.length * xs.length := by
        simp [List.map_const', List.sum_replicate, smul_eq_mul]
    _ = (min (rect.y + rect.height) h - rect.y) * (min (rect.x + rect.width) w - rect.x) := by
        simp [hys, hxs]

theorem wallFraction_nonneg (buf : ℕ → ℕ) (rect : Rect) (w h : ℕ) :
    0 ≤ wallFraction buf rect w h := by
  unfold wallFraction
  split
  · positivity
  · exact le_refl 0

theorem wallFraction_le_one (buf : ℕ → ℕ) (rect : Rect) (w h : ℕ) :
    wallFraction buf rect w h ≤ 1 := by
  unfold wallFraction
  split
  · rename_i hpos
    rw [div_le_one (by exact_mod_cast hpos)]
    exact_mod_cast wallPixelCount_le_total buf rect w h
  · norm_num

/-! ## Membership lemmas for the segmentation pipeline -/

theorem mem_filterCandidates (buf : ℕ → ℕ) (w h : ℕ) (rects : List Rect) (s : WallSegment) :
    s ∈ filterCandidates buf w h rects ↔
      ∃ r ∈ rects, 3/10 < validateWallCandidate buf r w h ∧
        s = ⟨r.x, r.y, r.width, r.height, validateWallCandidate buf r w h⟩ := by
  simp only [filterCandidates, List.mem_filterMap]
  constructor
  · rintro ⟨r, hr, hf⟩
    revert hf
    split_ifs with hc
    · intro hf
      exact ⟨r, hr, hc, (Option.some_inj.mp hf).symm⟩
    · intro hf
      exact absurd hf (by simp)
  · rintro ⟨r, hr, hc, rfl⟩
    exact ⟨r, hr, by simp [hc]⟩

theorem detectWallSegments_cases (buf : ℕ → ℕ) (w h : ℕ) :
    (acceptedSegments buf w h = [] ∧ detectWallSegments buf w h = [fallbackSegment w h]) ∨
    (acceptedSegments buf w h ≠ [] ∧ detectWallSegments buf w h = acceptedSegments buf w h) := by
  unfold detectWallSegments
  by_cases hemp : (acceptedSegments buf w h).isEmpty
  · exact Or.inl ⟨List.isEmpty_iff.mp hemp, by rw [if_pos hemp]⟩
  · exact Or.inr ⟨fun hx => hemp (by simp [hx]), by rw [if_neg hemp]⟩

theorem detectWallSegments_ne_nil (buf : ℕ → ℕ) (w h : ℕ) :
    detectWallSegments buf w h ≠ [] := by
  rcases detectWallSegments_cases buf w h with ⟨_, he⟩ | ⟨hne, he⟩ <;> rw [he]
  · simp
  · exact hne

theorem mem_detectWallSegments (buf : ℕ → ℕ) (w h : ℕ) (s : WallSegment)
    (hs : s ∈ detectWallSegments buf w h) :
    s = fallbackSegment w h ∨
      ∃ r : Rect, 3/10 < validateWallCandidate buf r w h ∧
        s = ⟨r.x, r.y, r.width, r.height, validateWallCandidate buf r w h⟩ := by
  rcases detectWallSegments_cases buf w h with ⟨_, he⟩ | ⟨_, he⟩ <;> rw [he] at hs
  · exact Or.inl (List.mem_singleton.mp hs)
  · rcases (mem_filterCandidates buf w h _ s).mp hs with ⟨r, _, hc, hsr⟩
    exact Or.inr ⟨r, hc, hsr⟩

/-! ## Claim C1: fallback segment on zero validated candidates -/

/-- Claim C1: whenever zero rectangle candidates pass wall validation, wall
segmentation still returns, and returns exactly one synthesized fallback
segment whose width is 80 percent of the image width, whose height is 60
percent of the image height, which is centered in the image, and whose
confidence is exactly one half. -/
theorem wall_fallback_spec (buf : ℕ → ℕ) (w h : ℕ)
    (hnone : acceptedSegments buf w h = []) :
    detectWallSegments buf w h = [fallbackSegment w h] ∧
    (fallbackSegment w h).width = 8/10 * (w : ℚ) ∧
    (fallbackSegment w h).height = 6/10 * (h : ℚ) ∧
    (fallbackSegment w h).x = ((w : ℚ) - (fallbackSegment w h).width) / 2 ∧
    (fallbackSegment w h).y = ((h : ℚ) - (fallbackSegment w h).height) / 2 ∧
    (fallbackSegment w h).confidence = 1/2 := by
  refine ⟨?_, ?_, ?_, ?_, ?_, rfl⟩
  · unfold detectWallSegments
    rw [hnone]
    rfl
  · show (w : ℚ) * (8/10) = 8/10 * (w : ℚ)
    ring
  · show (h : ℚ) * (6/10) = 6/10 * (h : ℚ)
    ring
  · show (w : ℚ) * (1/10) = ((w : ℚ) - (w : ℚ) * (8/10)) / 2
    ring
  · show (h : ℚ) * (2/10) = ((h : ℚ) - (h : ℚ) * (6/10)) / 2
    ring

/-- Concrete instance of wall_fallback_spec on an all-black 4 by 4 image,
which yields no validated candidates. -/
theorem wall_fallback_spec_witness :
    detectWallSegments (fun _ => 0) 4 4 = [fallbackSegment 4 4] ∧
    (fallbackSegment 4 4).confidence = 1/2 :=
  ⟨(wall_fallback_spec (fun _ => 0) 4 4 rfl).1,
   (wall_fallback_spec (fun _ => 0) 4 4 rfl).2.2.2.2.2⟩

/-! ## Claim C3: aggregate confidence is the mean and lies in the unit interval -/

theorem list_sum_nonneg_le_length (l : List ℚ) (hb : ∀ x ∈ l, 0 ≤ x ∧ x ≤ 1) :
    0 ≤ l.sum ∧ l.sum ≤ l.length := by
  induction l with
  | nil => simp
  | cons x xs ih =>
    have hx := hb x (List.mem_cons_self x xs)
    have hxs := ih fun y hy => hb y (List.mem_cons_of_mem x hy)
    constructor
    · simpa using add_nonneg hx.1 hxs.1
    · simp only [List.sum_cons, List.length_cons]
      push_cast
      linarith [hx.2, hxs.2]

theorem segment_confidence_cases (buf : ℕ → ℕ) (w h : ℕ) (s : WallSegment)
    (hs : s ∈ detectWallSegments buf w h) :
    (0 ≤ s.confidence ∧ s.confidence ≤ 1) ∧
      (s.confidence = 1/2 ∨ ∃ r : Rect, s.confidence = wallFraction buf r w h) := by
  rcases mem_detectWallSegments buf w h s hs with hfb | ⟨r, hc, hsr⟩
  · rw [hfb]
    exact ⟨⟨by show (0:ℚ) ≤ 1/2; norm_num, by show (1/2 : ℚ) ≤ 1; norm_num⟩, Or.inl rfl⟩
  · have hconf : s.confidence = wallFraction buf r w h := by
      rw [hsr, validateWallCandidate_eq_wallFraction]
    refine ⟨⟨?_, ?_⟩, Or.inr ⟨r, hconf⟩⟩
    · rw [hconf]; exact wallFraction_nonneg buf r w h
    · rw [hconf]; exact wallFraction_le_one buf r w h

/-- Claim C3: the confidence of the wall segmentation result is the arithmetic
mean of the segment confidences and lies between 0 and 1, and every segment
confidence is either a wall-like pixel fraction of some candidate box or
the fixed fallback value one half. -/
theorem segmentation_confidence_spec (buf : ℕ → ℕ) (w h : ℕ) :
    wallSegmentationConfidence buf w h
        = ((detectWallSegments buf w h).map (fun s => s.confidence)).sum
            / (detectWallSegments buf w h).length ∧
    0 ≤ wallSegmentationConfidence buf w h ∧
    wallSegmentationConfidence buf w h ≤ 1 ∧
    ∀ s ∈ detectWallSegments buf w h,
      0 ≤ s.confidence ∧ s.confidence ≤ 1 ∧
      (s.confidence = 1/2 ∨ ∃ r : Rect, s.confidence = wallFraction buf r w h) := by
  have hne := detectWallSegments_ne_nil buf w h
  have hlenpos : 0 < (detectWallSegments buf w h).length := List.length_pos.mpr hne
  have hmean : wallSegmentationConfidence buf w h
      = ((detectWallSegments buf w h).map (fun s => s.confidence)).sum
          / (detectWallSegments buf w h).length := by
    unfold wallSegmentationConfidence calculateConfidence
    rw [if_neg (by simpa using hne)]
  have hbounds : ∀ x ∈ (detectWallSegments buf w h).map (fun s => s.confidence),
      0 ≤ x ∧ x ≤ 1 := by
    intro x hx
    rcases List.mem_map.mp hx with ⟨s, hs, rfl⟩
    exact (segment_confidence_cases buf w h s hs).1
  have hsum := list_sum_nonneg_le_length _ hbounds
  refine ⟨hmean, ?_, ?_, ?_⟩
  · rw [hmean]
    exact div_nonneg hsum.1 (by positivity)
  · rw [hmean]
    rw [div_le_one (by exact_mod_cast hlenpos)]
    calc ((detectWallSegments buf w h).map (fun s => s.confidence)).sum
        ≤ (((detectWallSegments buf w h).map (fun s => s.confidence)).length : ℚ) := hsum.2
      _ = ((detectWallSegments buf w h).length : ℚ) := by simp
  · intro s hs
    rcases segment_confidence_cases buf w h s hs with ⟨⟨h0, h1⟩, hcase⟩
    exact ⟨h0, h1, hcase⟩

/-- Concrete instance of segmentation_confidence_spec on an all-black 4 by 4
image, whose single segment is the fallback with confidence one half. -/
theorem segmentation_confidence_spec_witness :
    0 ≤ wallSegmentationConfidence (fun _ => 0) 4 4 ∧
    wallSegmentationConfidence (fun _ => 0) 4 4 ≤ 1 ∧
    (0 ≤ (fallbackSegment 4 4).confidence ∧ (fallbackSegment 4 4).confidence ≤ 1 ∧
      ((fallbackSegment 4 4).confidence = 1/2 ∨
        ∃ r : Rect, (fallbackSegment 4 4).confidence = wallFraction (fun _ => 0) r 4 4)) :=
  ⟨(segmentation_confidence_spec (fun _ => 0) 4 4).2.1,
   (segmentation_confidence_spec (fun _ => 0) 4 4).2.2.1,
   (segmentation_confidence_spec (fun _ => 0) 4 4).2.2.2 (fallbackSegment 4 4)
     (by rw [show detectWallSegments (fun _ => 0) 4 4 = [fallbackSegment 4 4] from rfl]
         exact List.mem_singleton_self _)⟩

/-! ## Claim C5: wall validator pixel test and acceptance threshold -/

/-- Claim C5 counterexample: a 10 by 1 image whose first three pixels are
wall-like gives the full-row candidate confidence exactly 3/10, yet the
candidate is rejected, because the source keeps only candidates whose
confidence strictly exceeds 0.3. -/
theorem wall_validator_boundary_cex :
    validateWallCandidate (fun i => if i < 12 then 100 else 0) ⟨0, 0, 10, 1⟩ 10 1 = 3/10 ∧
    filterCandidates (fun i => if i < 12 then 100 else 0) 10 1 [⟨0, 0, 10, 1⟩] = [] := by
  have hxs : List.range' 0 (min (0 + 10) 10 - 0) = [0, 1, 2, 3, 4, 5, 6, 7, 8, 9] := by decide
  have hys : List.range' 0 (min (0 + 1) 1 - 0) = [0] := by decide
  have ht : ∀ x : ℕ, x < 3 → isWallPixel (fun i => if i < 12 then 100 else 0) 10 x 0 = true := by
    intro x hx
    interval_cases x <;> (simp only [isWallPixel]; norm_num)
  have hfa : ∀ x : ℕ, 3 ≤ x → isWallPixel (fun i => if i < 12 then 100 else 0) 10 x 0 = false := by
    intro x hx
    simp only [isWallPixel]
    have h1 : ¬ ((0 * 10 + x) * 4 < 12) := by omega
    have h2 : ¬ ((0 * 10 + x) * 4 + 1 < 12) := by omega
    have h3 : ¬ ((0 * 10 + x) * 4 + 2 < 12) := by omega
    simp only [if_neg h1, if_neg h2, if_neg h3]
    norm_num
  have hv : validateWallCandidate (fun i => if i < 12 then 100 else 0) ⟨0, 0, 10, 1⟩ 10 1
      = 3/10 := by
    simp only [validateWallCandidate]
    rw [hxs, hys]
    simp only [List.foldl_cons, List.foldl_nil,
      ht 0 (by norm_num), ht 1 (by norm_num), ht 2 (by norm_num),
      hfa 3 (by norm_num), hfa 4 (by norm_num), hfa 5 (by norm_num),
      hfa 6 (by norm_num), hfa 7 (by norm_num), hfa 8 (by norm_num), hfa 9 (by norm_num)]
    norm_num
  refine ⟨hv, ?_⟩
  simp [filterCandidates, hv]

/-- Claim C5 as amended: the pixel test is exactly mid-brightness strictly between
50 and 200 with channel spread strictly below 50, the candidate confidence
is the fraction of passing pixels in the clipped box, and a candidate is
kept exactly when its confidence strictly exceeds 0.3, so confidence
exactly 0.3 is rejected. -/
theorem wall_validator_spec_amended (buf : ℕ → ℕ) (w h : ℕ) (rects : List Rect) :
    (∀ x y : ℕ, isWallPixel buf w x y = true ↔
      ((50 : ℚ) < ((buf ((y*w+x)*4) + buf ((y*w+x)*4+1) + buf ((y*w+x)*4+2) : ℕ) : ℚ) / 3 ∧
       (((buf ((y*w+x)*4) + buf ((y*w+x)*4+1) + buf ((y*w+x)*4+2) : ℕ) : ℚ)) / 3 < 200 ∧
       max (buf ((y*w+x)*4)) (max (buf ((y*w+x)*4+1)) (buf ((y*w+x)*4+2)))
         - min (buf ((y*w+x)*4)) (min (buf ((y*w+x)*4+1)) (buf ((y*w+x)*4+2))) < 50)) ∧
    (∀ rect : Rect, validateWallCandidate buf rect w h = wallFraction buf rect w h) ∧
    (∀ rect ∈ rects,
      ((∃ s ∈ filterCandidates buf w h rects,
          s = ⟨rect.x, rect.y, rect.width, rect.height, validateWallCandidate buf rect w h⟩) ↔
        3/10 < validateWallCandidate buf rect w h)) := by
  refine ⟨?_, fun rect => validateWallCandidate_eq_wallFraction buf rect w h, ?_⟩
  · intro x y
    simp only [isWallPixel, decide_eq_true_eq]
    push_cast
    tauto
  · intro rect hrect
    constructor
    · rintro ⟨s, hs, hseq⟩
      rcases (mem_filterCandidates buf w h rects s).mp hs with ⟨r, _, hc, hsr⟩
      rw [hsr] at hseq
      simp only [WallSegment.mk.injEq, Nat.cast_inj] at hseq
      obtain ⟨hx, hy, hwd, hht, -⟩ := hseq
      have hr : r = rect := by
        cases r; cases rect
        simp only at hx hy hwd hht
        simp [hx, hy, hwd, hht]
      rw [hr] at hc
      exact hc
    · intro hc
      exact ⟨⟨rect.x, rect.y, rect.width, rect.height, validateWallCandidate buf rect w h⟩,
        (mem_filterCandidates buf w h rects _).mpr ⟨rect, hrect, hc, rfl⟩, rfl⟩

/-- Concrete instance of wall_validator_spec_amended: an all-100 10 by 1
image where the full-row candidate has confidence 1 and is kept. -/
theorem wall_validator_spec_amended_witness :
    (validateWallCandidate (fun _ => 100) ⟨0, 0, 10, 1⟩ 10 1
        = wallFraction (fun _ => 100) ⟨0, 0, 10, 1⟩ 10 1) ∧
    ((∃ s ∈ filterCandidates (fun _ => 100) 10 1 [⟨0, 0, 10, 1⟩],
        s = ⟨(0 : ℕ), (0 : ℕ), (10 : ℕ), (1 : ℕ),
          validateWallCandidate (fun _ => 100) ⟨0, 0, 10, 1⟩ 10 1⟩) ↔
      3/10 < validateWallCandidate (fun _ => 100) ⟨0, 0, 10, 1⟩ 10 1) :=
  ⟨(wall_validator_spec_amended (fun _ => 100) 10 1 [⟨0, 0, 10, 1⟩]).2.1 ⟨0, 0, 10, 1⟩,
   (wall_validator_spec_amended (fun _ => 100) 10 1 [⟨0, 0, 10, 1⟩]).2.2 ⟨0, 0, 10, 1⟩
     (List.mem_singleton.mpr rfl)⟩

/-! ## K-means structural lemmas -/

theorem nearestGo_lt (p : RGBColor) :
    ∀ (rest : List RGBColor) (i : ℕ) (d : ℤ) (best : ℕ), best < i →
      nearestGo p rest i d best < i + rest.length := by
  intro rest
  induction rest with
  | nil =>
    intro i d best hb
    simpa [nearestGo] using hb
  | cons c rest ih =>
    intro i d best hb
    simp only [nearestGo]
    split_ifs
    · have := ih (i+1) (euclidSq p c) i (Nat.lt_succ_self i)
      simpa [Nat.add_comm, Nat.add_assoc, Nat.add_left_comm] using this
    · have := ih (i+1) d best (Nat.lt_succ_of_lt hb)
      simpa [Nat.add_comm, Nat.add_assoc, Nat.add_left_comm] using this

theorem nearestGo_min (p : RGBColor) :
    ∀ (rest done : List RGBColor) (d : ℤ) (best : ℕ),
      best < done.length →
      d = euclidSq p ((done ++ rest).getD best (0, 0, 0)) →
      (∀ j, j < done.length → d ≤ euclidSq p ((done ++ rest).getD j (0, 0, 0))) →
      ∀ j, j < (done ++ rest).length →
        euclidSq p ((done ++ rest).getD (nearestGo p rest done.length d best) (0, 0, 0))
          ≤ euclidSq p ((done ++ rest).getD j (0, 0, 0)) := by
  intro rest
  induction rest with
  | nil =>
    intro done d best hb hd hmin j hj
    simp only [nearestGo]
    rw [← hd]
    exact hmin j (by simpa using hj)
  | cons c rest ih =>
    intro done d best hb hd hmin j hj
    have hgetc : (done ++ c :: rest).getD done.length (0, 0, 0) = c := by
      rw [List.getD_eq_getElem?_getD, List.getElem?_append_right (le_refl done.length)]
      simp
    have hsplit : done ++ c :: rest = (done ++ [c]) ++ rest := by
      rw [List.append_cons]
    have hlen1 : (done ++ [c]).length = done.length + 1 := by simp
    have hj' : j < ((done ++ [c]) ++ rest).length := by rw [← hsplit]; exact hj
    simp only [nearestGo]
    split_ifs with hlt
    · -- the new candidate at index done.length becomes the best
      have hres := ih (done ++ [c]) (euclidSq p c) done.length
        (by rw [hlen1]; exact Nat.lt_succ_self _)
        (by rw [← hsplit, hgetc])
        (by
          intro j' hj'
          rw [← hsplit]
          rw [hlen1] at hj'
          rcases Nat.lt_succ_iff_lt_or_eq.mp hj' with hlt' | heq
          · exact le_trans (le_of_lt hlt) (hmin j' hlt')
          · rw [heq, hgetc])
      rw [hsplit, ← hlen1]
      exact hres j hj'
    · -- the old best survives
      have hres := ih (done ++ [c]) d best
        (by rw [hlen1]; exact Nat.lt_succ_of_lt hb)
        (by rw [← hsplit]; exact hd)
        (by
          intro j' hj'
          rw [← hsplit]
          rw [hlen1] at hj'
          rcases Nat.lt_succ_iff_lt_or_eq.mp hj' with hlt' | heq
          · exact hmin j' hlt'
          · rw [heq, hgetc]; exact le_of_not_lt hlt)
      rw [hsplit, ← hlen1]
      exact hres j hj'

theorem nearestCentroid_lt (cs : List RGBColor) (p : RGBColor) (h : cs ≠ []) :
    nearestCentroid cs p < cs.length := by
  match cs with
  | [] => exact absurd rfl h
  | c :: rest =>
    simp only [nearestCentroid]
    have := nearestGo_lt p rest 1 (euclidSq p c) 0 (by norm_num)
    simpa [Nat.add_comm] using this

theorem nearestCentroid_min (cs : List RGBColor) (p : RGBColor) (h : cs ≠ []) :
    ∀ j, j < cs.length →
      euclidSq p (cs.getD (nearestCentroid cs p) (0, 0, 0))
        ≤ euclidSq p (cs.getD j (0, 0, 0)) := by
  match cs with
  | [] => exact absurd rfl h
  | c :: rest =>
    intro j hj
    have := nearestGo_min p rest [c] (euclidSq p c) 0 (by norm_num) (by simp)
      (by
        intro j' hj'
        have hj0 : j' = 0 := by simpa using hj'
        subst hj0
        simp) j (by simpa using hj)
    simpa [nearestCentroid] using this

theorem foldl_assign_getD (cs : List RGBColor) :
    ∀ (data : List RGBColor) (cls : List (List RGBColor)), cls.length = cs.length →
      ∀ i, i < cs.length →
        (data.foldl (fun cls pt => cls.set (nearestCentroid cs pt)
            (cls.getD (nearestCentroid cs pt) [] ++ [pt])) cls).getD i []
          = cls.getD i [] ++ data.filter (fun pt => nearestCentroid cs pt = i) := by
  intro data
  induction data with
  | nil =>
    intro cls _ i _
    simp
  | cons pt data ih =>
    intro cls hlen i hi
    rw [List.foldl_cons]
    rw [ih _ (by simpa using hlen) i hi]
    by_cases hn : nearestCentroid cs pt = i
    · rw [hn]
      have hset : (cls.set i (cls.getD i [] ++ [pt])).getD i [] = cls.getD i [] ++ [pt] := by
        rw [List.getD_eq_getElem?_getD, List.getElem?_set_self (by rw [hlen]; exact hi)]
        rfl
      rw [hset, List.filter_cons_of_pos (by simpa using hn), List.append_assoc]
      simp
    · have hset : (cls.set (nearestCentroid cs pt)
          (cls.getD (nearestCentroid cs pt) [] ++ [pt])).getD i [] = cls.getD i [] := by
        rw [List.getD_eq_getElem?_getD, List.getElem?_set_ne hn, List.getD_eq_getElem?_getD]
      rw [hset, List.filter_cons_of_neg (by simpa using hn)]

theorem assignClusters_getD (cs data : List RGBColor) (i : ℕ) (hi : i < cs.length) :
    (assignClusters cs data).getD i [] = data.filter (fun pt => nearestCentroid cs pt = i) := by
  unfold assignClusters
  rw [foldl_assign_getD cs data _ (by simp) i hi]
  simp [List.getD_eq_getElem?_getD, List.getElem?_replicate_of_lt hi]

theorem length_kMeansStep (data cs : List RGBColor) :
    (kMeansStep data cs).length = cs.length := by
  simp [kMeansStep, updateCentroids]

theorem kMeansStep_getD (data cs : List RGBColor) (i : ℕ) (hi : i < cs.length) :
    (kMeansStep data cs).getD i (0, 0, 0) =
      if data.filter (fun pt => nearestCentroid cs pt = i) = []
      then cs.getD i (0, 0, 0)
      else roundedMean (data.filter (fun pt => nearestCentroid cs pt = i)) := by
  unfold kMeansStep updateCentroids
  rw [List.getD_eq_getElem?_getD, List.getElem?_map, List.getElem?_range hi]
  simp only [Option.map_some', Option.getD_some]
  rw [assignClusters_getD cs data i hi]
  by_cases hemp : data.filter (fun pt => nearestCentroid cs pt = i) = []
  · rw [if_pos (by simpa using hemp), if_pos hemp]
  · rw [if_neg (by simpa using hemp), if_neg hemp]

theorem length_kMeansClustering (data init : List RGBColor) :
    (kMeansClustering data init).length = init.length := by
  unfold kMeansClustering
  have hgen : ∀ n, ((kMeansStep data)^[n] init).length = init.length := by
    intro n
    induction n with
    | zero => simp
    | succ n ihn => rw [Function.iterate_succ_apply', length_kMeansStep]; exact ihn
  exact hgen 10

/-! ## Claim C4: k-means runs exactly 10 iterations of assign and update -/

/-- Claim C4: k-means clustering is exactly ten iterations of one step, each step
assigning every sample to the first nearest centroid by Euclidean distance
(compared through squares) and replacing each centroid with a nonempty
cluster by the rounded mean of its cluster while empty clusters keep their
centroid, and the result always has exactly k centroids. -/
theorem kmeans_iteration_spec (data init : List RGBColor) (k : ℕ)
    (_hk : 1 ≤ k) (hlen : init.length = k) :
    kMeansClustering data init = (kMeansStep data)^[10] init ∧
    (kMeansClustering data init).length = k ∧
    (∀ cs : List RGBColor, cs ≠ [] → ∀ p : RGBColor,
      nearestCentroid cs p < cs.length ∧
      ∀ j, j < cs.length →
        euclidSq p (cs.getD (nearestCentroid cs p) (0, 0, 0))
          ≤ euclidSq p (cs.getD j (0, 0, 0))) ∧
    (∀ cs : List RGBColor, ∀ i, i < cs.length →
      (kMeansStep data cs).getD i (0, 0, 0) =
        if data.filter (fun pt => nearestCentroid cs pt = i) = []
        then cs.getD i (0, 0, 0)
        else roundedMean (data.filter (fun pt => nearestCentroid cs pt = i))) :=
  ⟨rfl, by rw [length_kMeansClustering, hlen],
   fun cs hcs p => ⟨nearestCentroid_lt cs p hcs, nearestCentroid_min cs p hcs⟩,
   fun cs i hi => kMeansStep_getD data cs i hi⟩

/-- Concrete instance of kmeans_iteration_spec on a two-point data set with
two centroids. -/
theorem kmeans_iteration_spec_witness :
    (kMeansClustering [(0, 0, 0), (10, 10, 10)] [(0, 0, 0), (10, 10, 10)]).length = 2 ∧
    nearestCentroid [(0, 0, 0), (10, 10, 10)] (0, 0, 0) < 2 ∧
    (kMeansStep [(0, 0, 0), (10, 10, 10)] [(0, 0, 0), (10, 10, 10)]).getD 0 (0, 0, 0) =
      if ([(0, 0, 0), (10, 10, 10)] : List RGBColor).filter
          (fun pt => nearestCentroid [(0, 0, 0), (10, 10, 10)] pt = 0) = []
      then ([(0, 0, 0), (10, 10, 10)] : List RGBColor).getD 0 (0, 0, 0)
      else roundedMean (([(0, 0, 0), (10, 10, 10)] : List RGBColor).filter
          (fun pt => nearestCentroid [(0, 0, 0), (10, 10, 10)] pt = 0)) :=
  ⟨(kmeans_iteration_spec [(0, 0, 0), (10, 10, 10)] [(0, 0, 0), (10, 10, 10)] 2
      (by norm_num) rfl).2.1,
   ((kmeans_iteration_spec [(0, 0, 0), (10, 10, 10)] [(0, 0, 0), (10, 10, 10)] 2
      (by norm_num) rfl).2.2.1 _ (by decide) (0, 0, 0)).1,
   (kmeans_iteration_spec [(0, 0, 0), (10, 10, 10)] [(0, 0, 0), (10, 10, 10)] 2
      (by norm_num) rfl).2.2.2 [(0, 0, 0), (10, 10, 10)] 0 (by decide)⟩

/-! ## Claim C8: uniform samples make every centroid the sample color -/

theorem nearestGo_const (p c : RGBColor) :
    ∀ (m i : ℕ) (d : ℤ) (best : ℕ), ¬ euclidSq p c < d →
      nearestGo p (List.replicate m c) i d best = best := by
  intro m
  induction m with
  | zero => intro i d best _; rfl
  | succ m ih =>
    intro i d best hnot
    rw [List.replicate_succ]
    simp only [nearestGo]
    rw [if_neg hnot]
    exact ih (i+1) d best hnot

theorem nearestCentroid_replicate (k : ℕ) (c p : RGBColor) (hk : 1 ≤ k) :
    nearestCentroid (List.replicate k c) p = 0 := by
  obtain ⟨m, rfl⟩ : ∃ m, k = m + 1 := ⟨k - 1, by omega⟩
  rw [List.replicate_succ]
  simp only [nearestCentroid]
  exact nearestGo_const p c m 1 (euclidSq p c) 0 (lt_irrefl _)

theorem roundedMean_replicate (n : ℕ) (c : RGBColor) (hn : 0 < n) :
    roundedMean (List.replicate n c) = c := by
  have hch : ∀ v : ℕ, roundHalfDiv (n * v) n = v := by
    intro v
    unfold roundHalfDiv
    rw [show 2 * (n * v) + n = n * (2 * v + 1) by ring, show 2 * n = n * 2 by ring,
      Nat.mul_div_mul_left _ _ hn, Nat.mul_add_div (by norm_num)]
    simp
  unfold roundedMean
  rcases c with ⟨r, g, b⟩
  simp [List.map_replicate, List.sum_replicate, smul_eq_mul, hch]

theorem kMeansStep_uniform (data : List RGBColor) (k : ℕ) (c : RGBColor)
    (hk : 1 ≤ k) (hne : data ≠ []) (hall : ∀ x ∈ data, x = c) :
    kMeansStep data (List.replicate k c) = List.replicate k c := by
  have hdata : data = List.replicate data.length c :=
    List.eq_replicate_iff.mpr ⟨rfl, hall⟩
  have hlen : (kMeansStep data (List.replicate k c)).length = k := by
    rw [length_kMeansStep, List.length_replicate]
  apply List.ext_getElem (by rw [hlen, List.length_replicate])
  intro i h1 h2
  have hik : i < k := by rwa [hlen] at h1
  have hgetD : (kMeansStep data (List.replicate k c)).getD i (0, 0, 0) = c := by
    rw [kMeansStep_getD data _ i (by simpa using hik)]
    by_cases hi0 : i = 0
    · subst hi0
      have hfil : data.filter (fun pt => nearestCentroid (List.replicate k c) pt = 0)
          = data :=
        List.filter_eq_self.mpr (fun a _ => by simp [nearestCentroid_replicate k c a hk])
      rw [hfil, if_neg hne]
      rw [hdata]
      exact roundedMean_replicate data.length c (by rw [List.length_pos]; exact hne)
    · have hfil : data.filter (fun pt => nearestCentroid (List.replicate k c) pt = i)
          = [] :=
        List.filter_eq_nil_iff.mpr
          (fun a _ => by simp [nearestCentroid_replicate k c a hk]; omega)
      rw [hfil, if_pos rfl]
      rw [List.getD_eq_getElem?_getD, List.getElem?_replicate_of_lt hik]
      rfl
  rw [List.getD_eq_getElem?_getD, List.getElem?_eq_getElem h1, Option.getD_some] at hgetD
  rw [hgetD, List.getElem_replicate]

theorem kMeansClustering_uniform (data : List RGBColor) (k : ℕ) (c : RGBColor)
    (hk : 1 ≤ k) (hne : data ≠ []) (hall : ∀ x ∈ data, x = c) :
    kMeansClustering data (List.replicate k c) = List.replicate k c := by
  unfold kMeansClustering
  have hgen : ∀ n, (kMeansStep data)^[n] (List.replicate k c) = List.replicate k c := by
    intro n
    induction n with
    | zero => rfl
    | succ n ihn =>
      rw [Function.iterate_succ_apply', ihn, kMeansStep_uniform data k c hk hne hall]
  exact hgen 10

/-- Claim C8: when every sampled pixel of the image is the same RGB color, k-means
returns k centroids that all equal that color exactly. -/
theorem kmeans_uniform_spec (data : List ℕ) (init : List RGBColor) (c : RGBColor)
    (hne : sampleColors data ≠ []) (hall : ∀ s ∈ sampleColors data, s = c)
    (hinit : ∀ x ∈ init, x ∈ sampleColors data) (hk : 1 ≤ init.length) :
    extractColors data init = List.replicate init.length c ∧
    ∀ col ∈ extractColors data init, col = c := by
  have hinitrep : init = List.replicate init.length c :=
    List.eq_replicate_iff.mpr ⟨rfl, fun x hx => hall x (hinit x hx)⟩
  have hmain : extractColors data init = List.replicate init.length c := by
    unfold extractColors
    calc kMeansClustering (sampleColors data) init
        = kMeansClustering (sampleColors data) (List.replicate init.length c) := by
          rw [← hinitrep]
      _ = List.replicate init.length c :=
          kMeansClustering_uniform (sampleColors data) init.length c hk hne hall
  refine ⟨hmain, fun col hcol => ?_⟩
  rw [hmain] at hcol
  exact (List.mem_replicate.mp hcol).2

/-- Concrete instance of kmeans_uniform_spec: a one-pixel buffer with color
9 9 9 and two initial centroids drawn from it. -/
theorem kmeans_uniform_spec_witness :
    extractColors [9, 9, 9, 0] [(9, 9, 9), (9, 9, 9)] = List.replicate 2 (9, 9, 9) :=
  (kmeans_uniform_spec [9, 9, 9, 0] [(9, 9, 9), (9, 9, 9)] (9, 9, 9)
    (by decide) (by decide) (by decide) (by norm_num)).1

/-! ## Claim C10: the dominant color is positionally the first palette entry -/

/-- Claim C10: for every successful palette extraction the returned dominantColor
is the hex encoding of the first k-means centroid and equals the first
element of the returned colors list; it is positional, not frequency based. -/
theorem dominant_color_spec (data : List ℕ) (init : List RGBColor) (hne : init ≠ []) :
    (extractColorPalette data init).colors.head?
        = some ((extractColorPalette data init).dominantColor) ∧
    (extractColorPalette data init).dominantColor
        = rgbToHex ((extractColors data init).headD (0, 0, 0)) := by
  have hlen : (extractColors data init).length = init.length :=
    length_kMeansClustering (sampleColors data) init
  have hcs : extractColors data init ≠ [] := by
    intro hnil
    rw [hnil] at hlen
    exact hne (List.length_eq_zero.mp hlen.symm)
  obtain ⟨c0, t, hct⟩ := List.exists_cons_of_ne_nil hcs
  constructor
  · simp only [extractColorPalette, findDominantColor]
    rw [hct]
    simp
  · simp only [extractColorPalette, findDominantColor]

/-- Concrete instance of dominant_color_spec on a one-pixel buffer. -/
theorem dominant_color_spec_witness :
    (extractColorPalette [1, 2, 3, 4] [(1, 2, 3)]).colors.head?
        = some ((extractColorPalette [1, 2, 3, 4] [(1, 2, 3)]).dominantColor) :=
  (dominant_color_spec [1, 2, 3, 4] [(1, 2, 3)] (by decide)).1

/-! ## Hex string form of palette entries -/

theorem hexDigitChar_hex (n : ℕ) (hn : n < 16) : isHexDigitChar (hexDigitChar n) = true := by
  interval_cases n <;> decide

theorem toHexDigits_length : ∀ (k n : ℕ), 16^k ≤ n → n < 16^(k+1) →
    (toHexDigits n).length = k + 1 := by
  intro k
  induction k with
  | zero =>
    intro n _ hup
    rw [toHexDigits]
    rw [dif_pos (by simpa using hup)]
    rfl
  | succ k ihk =>
    intro n hlo hup
    have h16 : ¬ n < 16 := by
      have : (16:ℕ)^1 ≤ 16^(k+1) := Nat.pow_le_pow_right (by norm_num) (by omega)
      simp only [pow_one] at this
      omega
    rw [toHexDigits]
    rw [dif_neg h16]
    rw [List.length_append]
    have hdiv_lo : 16^k ≤ n / 16 := by
      rw [Nat.le_div_iff_mul_le (by norm_num)]
      calc 16^k * 16 = 16^(k+1) := by ring
        _ ≤ n := hlo
    have hdiv_up : n / 16 < 16^(k+1) := by
      rw [Nat.div_lt_iff_lt_mul (by norm_num)]
      calc n < 16^(k+1+1) := hup
        _ = 16^(k+1) * 16 := by ring
    rw [ihk (n / 16) hdiv_lo hdiv_up]
    rfl

theorem toHexDigits_all_hex (n : ℕ) : ∀ c ∈ toHexDigits n, isHexDigitChar c = true := by
  induction n using Nat.strong_induction_on with
  | _ n ih =>
    intro c hc
    rw [toHexDigits] at hc
    by_cases h16 : n < 16
    · rw [dif_pos h16] at hc
      rw [List.mem_singleton.mp hc]
      exact hexDigitChar_hex n h16
    · rw [dif_neg h16] at hc
      rcases List.mem_append.mp hc with hmem | hmem
      · exact ih (n / 16) (Nat.div_lt_self (by omega) (by norm_num)) c hmem
      · rw [List.mem_singleton.mp hmem]
        exact hexDigitChar_hex (n % 16) (Nat.mod_lt n (by norm_num))

theorem rgbToHex_form (c : RGBColor)
    (h1 : c.1 ≤ 255) (h2 : c.2.1 ≤ 255) (h3 : c.2.2 ≤ 255) :
    (rgbToHex c).length = 7 ∧ (rgbToHex c).toList.head? = some '#' ∧
      ∀ ch ∈ (rgbToHex c).toList.tail, isHexDigitChar ch = true := by
  rcases c with ⟨r, g, b⟩
  simp only at h1 h2 h3
  set v := 2^24 + r * 2^16 + g * 2^8 + b with hv
  have hlo : 16^6 ≤ v := by
    have : (16:ℕ)^6 = 2^24 := by norm_num
    omega
  have hup : v < 16^(6+1) := by
    have h167 : (16:ℕ)^7 = 268435456 := by norm_num
    have hr : r * 2^16 ≤ 255 * 65536 := by
      have := Nat.mul_le_mul_right (2^16) h1
      simpa using this
    have hg : g * 2^8 ≤ 255 * 256 := by
      have := Nat.mul_le_mul_right (2^8) h2
      simpa using this
    omega
  have hdig : (toHexDigits v).length = 7 := toHexDigits_length 6 v hlo hup
  refine ⟨?_, ?_, ?_⟩
  · show ('#' :: (toHexDigits v).drop 1).length = 7
    rw [List.length_cons, List.length_drop, hdig]
  · rfl
  · intro ch hch
    have hsub : ch ∈ toHexDigits v := List.drop_subset 1 _ hch
    exact toHexDigits_all_hex v ch hsub

/-! ## Byte bound invariant through clustering -/

theorem getD_le_255 (data : List ℕ) (hb : ∀ x ∈ data, x ≤ 255) (idx : ℕ) :
    data.getD idx 0 ≤ 255 := by
  by_cases hidx : idx < data.length
  · have hmem : data.getD idx 0 ∈ data := by
      rw [List.getD_eq_getElem?_getD, List.getElem?_eq_getElem hidx, Option.getD_some]
      exact List.getElem_mem hidx
    exact hb _ hmem
  · rw [List.getD_eq_getElem?_getD, List.getElem?_eq_none (by omega), Option.getD_none]
    norm_num

theorem sampleColors_bounded (data : List ℕ) (hb : ∀ x ∈ data, x ≤ 255) :
    ∀ c ∈ sampleColors data, c.1 ≤ 255 ∧ c.2.1 ≤ 255 ∧ c.2.2 ≤ 255 := by
  intro c hc
  rcases List.mem_map.mp hc with ⟨j, _, rfl⟩
  exact ⟨getD_le_255 data hb _, getD_le_255 data hb _, getD_le_255 data hb _⟩

theorem roundHalfDiv_le_255 (s n : ℕ) (hn : 0 < n) (hs : s ≤ 255 * n) :
    roundHalfDiv s n ≤ 255 := by
  unfold roundHalfDiv
  have hlt : (2 * s + n) / (2 * n) < 256 := by
    rw [Nat.div_lt_iff_lt_mul (by omega)]
    omega
  omega

theorem map_sum_le_255 (cl : List RGBColor) (f : RGBColor → ℕ)
    (hb : ∀ c ∈ cl, f c ≤ 255) : (cl.map f).sum ≤ 255 * cl.length := by
  calc (cl.map f).sum ≤ (cl.map fun _ => 255).sum := List.sum_le_sum hb
    _ = 255 * cl.length := by
        simp [List.map_const', List.sum_replicate, smul_eq_mul, Nat.mul_comm]

theorem roundedMean_bounded (cl : List RGBColor) (hne : cl ≠ [])
    (hb : ∀ c ∈ cl, c.1 ≤ 255 ∧ c.2.1 ≤ 255 ∧ c.2.2 ≤ 255) :
    (roundedMean cl).1 ≤ 255 ∧ (roundedMean cl).2.1 ≤ 255 ∧ (roundedMean cl).2.2 ≤ 255 := by
  have hpos : 0 < cl.length := List.length_pos.mpr hne
  refine ⟨?_, ?_, ?_⟩
  · exact roundHalfDiv_le_255 _ _ hpos (map_sum_le_255 cl _ fun c hc => (hb c hc).1)
  · exact roundHalfDiv_le_255 _ _ hpos (map_sum_le_255 cl _ fun c hc => (hb c hc).2.1)
  · exact roundHalfDiv_le_255 _ _ hpos (map_sum_le_255 cl _ fun c hc => (hb c hc).2.2)

theorem kMeansStep_bounded (data cs : List RGBColor)
    (hdata : ∀ c ∈ data, c.1 ≤ 255 ∧ c.2.1 ≤ 255 ∧ c.2.2 ≤ 255)
    (hcs : ∀ c ∈ cs, c.1 ≤ 255 ∧ c.2.1 ≤ 255 ∧ c.2.2 ≤ 255) :
    ∀ c ∈ kMeansStep data cs, c.1 ≤ 255 ∧ c.2.1 ≤ 255 ∧ c.2.2 ≤ 255 := by
  intro c hc
  simp only [kMeansStep, updateCentroids] at hc
  rcases List.mem_map.mp hc with ⟨i, hi, rfl⟩
  have hik : i < cs.length := List.mem_range.mp hi
  rw [assignClusters_getD cs data i hik]
  split_ifs with hemp
  · have hmem : cs.getD i (0, 0, 0) ∈ cs := by
      rw [List.getD_eq_getElem?_getD, List.getElem?_eq_getElem hik, Option.getD_some]
      exact List.getElem_mem hik
    exact hcs _ hmem
  · have hne : data.filter (fun pt => nearestCentroid cs pt = i) ≠ [] := by
      intro hnil
      rw [hnil] at hemp
      simp at hemp
    refine roundedMean_bounded _ hne ?_
    intro c hc
    exact hdata c (List.mem_of_mem_filter hc)

theorem kMeansClustering_bounded (data init : List RGBColor)
    (hdata : ∀ c ∈ data, c.1 ≤ 255 ∧ c.2.1 ≤ 255 ∧ c.2.2 ≤ 255)
    (hinit : ∀ c ∈ init, c.1 ≤ 255 ∧ c.2.1 ≤ 255 ∧ c.2.2 ≤ 255) :
    ∀ c ∈ kMeansClustering data init, c.1 ≤ 255 ∧ c.2.1 ≤ 255 ∧ c.2.2 ≤ 255 := by
  unfold kMeansClustering
  have hgen : ∀ n, ∀ c ∈ (kMeansStep data)^[n] init,
      c.1 ≤ 255 ∧ c.2.1 ≤ 255 ∧ c.2.2 ≤ 255 := by
    intro n
    induction n with
    | zero => exact hinit
    | succ n ihn =>
      rw [Function.iterate_succ_apply']
      exact kMeansStep_bounded data _ hdata ihn
  exact hgen 10

/-! ## Claim C2: palette size and hex form -/

/-- Claim C2: for a nonempty RGBA byte buffer and k at least 1, the extracted
palette has exactly k entries and every entry is a 7 character string of
the shape hash sign followed by six lowercase hex digits. -/
theorem palette_count_hex_spec (data : List ℕ) (init : List RGBColor) (k : ℕ)
    (_hdata : data ≠ []) (_hlen4 : 4 ∣ data.length) (hbytes : ∀ x ∈ data, x ≤ 255)
    (_hk : 1 ≤ k) (hlen : init.length = k)
    (hinit : ∀ x ∈ init, x ∈ sampleColors data) :
    (extractColorPalette data init).colors.length = k ∧
    ∀ s ∈ (extractColorPalette data init).colors,
      s.length = 7 ∧ s.toList.head? = some '#' ∧
        ∀ ch ∈ s.toList.tail, isHexDigitChar ch = true := by
  have hcolors : (extractColorPalette data init).colors
      = (extractColors data init).map rgbToHex := by
    simp only [extractColorPalette]
  constructor
  · rw [hcolors, List.length_map]
    rw [show extractColors data init = kMeansClustering (sampleColors data) init from rfl]
    rw [length_kMeansClustering, hlen]
  · intro s hs
    rw [hcolors] at hs
    rcases List.mem_map.mp hs with ⟨c, hcmem, rfl⟩
    have hbc := kMeansClustering_bounded (sampleColors data) init
      (sampleColors_bounded data hbytes)
      (fun c hc => sampleColors_bounded data hbytes c (hinit c hc)) c hcmem
    exact rgbToHex_form c hbc.1 hbc.2.1 hbc.2.2

/-- Concrete instance of palette_count_hex_spec on a one-pixel buffer with
one centroid. -/
theorem palette_count_hex_spec_witness :
    (extractColorPalette [1, 2, 3, 4] [(1, 2, 3)]).colors.length = 1 ∧
    (rgbToHex (1, 2, 3)).length = 7 :=
  ⟨(palette_count_hex_spec [1, 2, 3, 4] [(1, 2, 3)] 1 (by decide) (by decide)
      (by decide) (by norm_num) rfl (by decide)).1,
   ((palette_count_hex_spec [1, 2, 3, 4] [(1, 2, 3)] 1 (by decide) (by decide)
      (by decide) (by norm_num) rfl (by decide)).2 (rgbToHex (1, 2, 3))
      (by
        have he : extractColors [1, 2, 3, 4] [(1, 2, 3)] = [(1, 2, 3)] := by decide
        simp [extractColorPalette, he])).1⟩

/-! ## Claim C6: rectangle finder grid, first crossing walk, and size filter -/

theorem find?_range'_eq_some (p : ℕ → Bool) :
    ∀ (len s x : ℕ), (List.range' s len).find? p = some x ↔
      (s ≤ x ∧ x < s + len ∧ p x = true ∧ ∀ y, s ≤ y → y < x → p y = false) := by
  intro len
  induction len with
  | zero =>
    intro s x
    constructor
    · intro hfind
      simp at hfind
    · rintro ⟨h1, h2, -, -⟩
      omega
  | succ len ih =>
    intro s x
    rw [List.range'_succ]
    by_cases hps : p s = true
    · rw [List.find?_cons_of_pos _ hps]
      constructor
      · intro hsome
        have hxs : x = s := (Option.some_inj.mp hsome).symm
        subst hxs
        exact ⟨le_refl x, by omega, hps, fun y h1 h2 => absurd h2 (by omega)⟩
      · rintro ⟨h1, _, hpx, hall⟩
        by_cases hxs : x = s
        · rw [hxs]
        · have : p s = false := hall s (le_refl s) (by omega)
          rw [hps] at this
          exact absurd this (by simp)
    · have hps' : p s = false := by
        cases hb : p s
        · rfl
        · exact absurd hb hps
      rw [List.find?_cons_of_neg _ (by simp [hps'])]
      rw [ih (s+1) x]
      constructor
      · rintro ⟨h1, h2, hpx, hall⟩
        refine ⟨by omega, by omega, hpx, ?_⟩
        intro y hy1 hy2
        by_cases hys : y = s
        · rw [hys]; exact hps'
        · exact hall y (by omega) hy2
      · rintro ⟨h1, h2, hpx, hall⟩
        have hxs : x ≠ s := by
          intro hxx
          rw [hxx] at hpx
          rw [hps'] at hpx
          exact absurd hpx (by simp)
        refine ⟨by omega, by omega, hpx, ?_⟩
        intro y hy1 hy2
        exact hall y (by omega) hy2

theorem findRectangleAtPoint_some (edges : ℕ → ℕ) (sx sy w h : ℕ) (r : Rect)
    (hr : findRectangleAtPoint edges sx sy w h = some r) :
    r.x = sx ∧ r.y = sy ∧ 50 < r.width ∧ 50 < r.height ∧
    (sx + r.width < min (sx + 200) w ∧ 100 < edges (sy * w + (sx + r.width)) ∧
      ∀ x, sx ≤ x → x < sx + r.width → ¬ 100 < edges (sy * w + x)) ∧
    (sy + r.height < min (sy + 200) h ∧ 100 < edges ((sy + r.height) * w + sx) ∧
      ∀ y, sy ≤ y → y < sy + r.height → ¬ 100 < edges (y * w + sx)) := by
  simp only [findRectangleAtPoint] at hr
  rcases hfx : (List.range' sx (min (sx + 200) w - sx)).find?
      (fun x => 100 < edges (sy * w + x)) with _ | cx
  · rw [hfx] at hr
    simp at hr
  · rw [hfx] at hr
    rcases hfy : (List.range' sy (min (sy + 200) h - sy)).find?
        (fun y => 100 < edges (y * w + sx)) with _ | cy
    · rw [hfy] at hr
      simp at hr
    · rw [hfy] at hr
      split_ifs at hr with hcond
      · have hreq : r = ⟨sx, sy, cx - sx, cy - sy⟩ := (Option.some_inj.mp hr).symm
        obtain ⟨hx1, hx2, hpx, hallx⟩ := (find?_range'_eq_some _ _ _ _).mp hfx
        obtain ⟨hy1, hy2, hpy, hally⟩ := (find?_range'_eq_some _ _ _ _).mp hfy
        rw [decide_eq_true_eq] at hpx hpy
        subst hreq
        refine ⟨rfl, rfl, hcond.1, hcond.2, ?_, ?_⟩
        · show sx + (cx - sx) < min (sx + 200) w ∧
            100 < edges (sy * w + (sx + (cx - sx))) ∧
            ∀ x, sx ≤ x → x < sx + (cx - sx) → ¬ 100 < edges (sy * w + x)
          rw [show sx + (cx - sx) = cx by omega]
          refine ⟨by omega, hpx, ?_⟩
          intro x h1 h2
          have := hallx x h1 h2
          rwa [decide_eq_false_iff_not] at this
        · show sy + (cy - sy) < min (sy + 200) h ∧
            100 < edges ((sy + (cy - sy)) * w + sx) ∧
            ∀ y, sy ≤ y → y < sy + (cy - sy) → ¬ 100 < edges (y * w + sx)
          rw [show sy + (cy - sy) = cy by omega]
          refine ⟨by omega, hpy, ?_⟩
          intro y h1 h2
          have := hally y h1 h2
          rwa [decide_eq_false_iff_not] at this

theorem mem_findRectangles (edges : ℕ → ℕ) (w h : ℕ) (r : Rect) :
    r ∈ findRectangles edges w h ↔
      ∃ sx sy : ℕ, sx % 50 = 0 ∧ sx < w ∧ sy % 50 = 0 ∧ sy < h ∧
        findRectangleAtPoint edges sx sy w h = some r ∧
        100 < r.width ∧ 100 < r.height := by
  unfold findRectangles
  rw [List.mem_flatMap]
  constructor
  · rintro ⟨sy, hsy, hinner⟩
    rw [List.mem_filterMap] at hinner
    obtain ⟨sx, hsx, hf⟩ := hinner
    rw [List.mem_range'] at hsy hsx
    obtain ⟨iy, hiy, hsyeq⟩ := hsy
    obtain ⟨ix, hix, hsxeq⟩ := hsx
    rcases hfp : findRectangleAtPoint edges sx sy w h with _ | r'
    · rw [hfp] at hf
      simp at hf
    · rw [hfp] at hf
      have hf' : (if 100 < r'.width ∧ 100 < r'.height then some r' else none) = some r := hf
      split_ifs at hf' with hcond
      · have hrr : r' = r := Option.some_inj.mp hf'
        subst hrr
        exact ⟨sx, sy, by omega, by omega, by omega, by omega, hfp, hcond.1, hcond.2⟩
  · rintro ⟨sx, sy, hsx0, hsxw, hsy0, hsyh, hfp, hw100, hh100⟩
    refine ⟨sy, ?_, ?_⟩
    · rw [List.mem_range']
      exact ⟨sy / 50, by omega, by omega⟩
    · rw [List.mem_filterMap]
      refine ⟨sx, ?_, ?_⟩
      · rw [List.mem_range']
        exact ⟨sx / 50, by omega, by omega⟩
      · rw [hfp]
        show (if 100 < r.width ∧ 100 < r.height then some r else none) = some r
        rw [if_pos ⟨hw100, hh100⟩]

/-- Claim C6 counterexample: an edge map on a 70 by 70 image with crossings 60
pixels right of and 60 pixels below the origin seed.  The seed search finds
the 60 by 60 box, whose width and height both exceed 50, yet findRectangles
returns the empty list, because the source also requires both dimensions to
exceed 100. -/
theorem rectangle_finder_cex :
    findRectangleAtPoint (fun i => if i = 60 ∨ i = 60 * 70 then 150 else 0) 0 0 70 70
        = some ⟨0, 0, 60, 60⟩ ∧
    (50 < 60 ∧ 50 < 60) ∧
    findRectangles (fun i => if i = 60 ∨ i = 60 * 70 then 150 else 0) 70 70 = [] := by
  refine ⟨by decide, by decide, by decide⟩

/-- Claim C6 as amended: boxes are seeded on the fixed 50 pixel grid, each box
found at a seed takes its width and height as the distance to the first edge
magnitude crossing strictly above 100 along the seed row and column inside a
200 pixel search window, a box is produced at a seed only when width and
height both exceed 50, and the returned list holds exactly the seed boxes
whose width and height both exceed 100. -/
theorem rectangle_finder_spec_amended (edges : ℕ → ℕ) (w h : ℕ) :
    (∀ r : Rect, r ∈ findRectangles edges w h ↔
      ∃ sx sy : ℕ, sx % 50 = 0 ∧ sx < w ∧ sy % 50 = 0 ∧ sy < h ∧
        findRectangleAtPoint edges sx sy w h = some r ∧
        100 < r.width ∧ 100 < r.height) ∧
    (∀ sx sy : ℕ, ∀ r : Rect, findRectangleAtPoint edges sx sy w h = some r →
      r.x = sx ∧ r.y = sy ∧ 50 < r.width ∧ 50 < r.height ∧
      (sx + r.width < min (sx + 200) w ∧ 100 < edges (sy * w + (sx + r.width)) ∧
        ∀ x, sx ≤ x → x < sx + r.width → ¬ 100 < edges (sy * w + x)) ∧
      (sy + r.height < min (sy + 200) h ∧ 100 < edges ((sy + r.height) * w + sx) ∧
        ∀ y, sy ≤ y → y < sy + r.height → ¬ 100 < edges (y * w + sx))) :=
  ⟨fun r => mem_findRectangles edges w h r,
   fun sx sy r hr => findRectangleAtPoint_some edges sx sy w h r hr⟩

/-- Concrete instance of rectangle_finder_spec_amended: a 160 by 160 edge
map whose origin seed yields a 150 by 150 box, which therefore appears in
the returned list. -/
theorem rectangle_finder_spec_amended_witness :
    (⟨0, 0, 150, 150⟩ : Rect) ∈
      findRectangles (fun i => if i = 150 ∨ i = 150 * 160 then 200 else 0) 160 160 ∧
    (⟨0, 0, 150, 150⟩ : Rect).x = 0 ∧ 50 < (⟨0, 0, 150, 150⟩ : Rect).width :=
  ⟨((rectangle_finder_spec_amended
      (fun i => if i = 150 ∨ i = 150 * 160 then 200 else 0) 160 160).1 ⟨0, 0, 150, 150⟩).mpr
      ⟨0, 0, by decide, by decide, by decide, by decide, by decide, by decide, by decide⟩,
   ((rectangle_finder_spec_amended
      (fun i => if i = 150 ∨ i = 150 * 160 then 200 else 0) 160 160).2 0 0
      ⟨0, 0, 150, 150⟩ (by decide)).1,
   (((rectangle_finder_spec_amended
      (fun i => if i = 150 ∨ i = 150 * 160 then 200 else 0) 160 160).2 0 0
      ⟨0, 0, 150, 150⟩ (by decide)).2.2).1⟩

/-! ## Claim C7: Sobel edge detector with zero border -/

theorem natSqrtNearest_close (S : ℕ) :
    |(natSqrtNearest S : ℝ) - Real.sqrt S| ≤ 1/2 := by
  have h1 : Nat.sqrt S * Nat.sqrt S ≤ S := Nat.sqrt_le S
  have h2 : S < (Nat.sqrt S + 1) * (Nat.sqrt S + 1) := Nat.lt_succ_sqrt S
  have ht0 : (0:ℝ) ≤ Real.sqrt S := Real.sqrt_nonneg _
  have ht2 : Real.sqrt S ^ 2 = S := Real.sq_sqrt (by positivity)
  simp only [natSqrtNearest]
  split_ifs with hcase
  · have hSup : (S : ℝ) ≤ Nat.sqrt S * Nat.sqrt S + Nat.sqrt S := by exact_mod_cast hcase
    have hSlo : ((Nat.sqrt S : ℝ)) * Nat.sqrt S ≤ S := by exact_mod_cast h1
    rw [abs_le]
    constructor
    · nlinarith [ht0, ht2, hSup]
    · nlinarith [ht0, ht2, hSlo]
  · have hSlo : (Nat.sqrt S : ℝ) * Nat.sqrt S + Nat.sqrt S + 1 ≤ S := by
      have : Nat.sqrt S * Nat.sqrt S + Nat.sqrt S + 1 ≤ S := by omega
      exact_mod_cast this
    have hSup : (S : ℝ) < (Nat.sqrt S + 1) * (Nat.sqrt S + 1) := by exact_mod_cast h2
    rw [abs_le]
    push_cast
    constructor
    · nlinarith [ht0, ht2, hSup]
    · nlinarith [ht0, ht2, hSlo]

theorem min_sub_min_abs_le (c a b : ℝ) : |min c a - min c b| ≤ |a - b| := by
  rcases le_total a c with h1 | h1 <;> rcases le_total b c with h2 | h2
  · rw [min_eq_right h1, min_eq_right h2]
  · rw [min_eq_right h1, min_eq_left h2]
    rw [abs_of_nonpos (by linarith), abs_of_nonpos (by linarith)]
    linarith
  · rw [min_eq_left h1, min_eq_right h2]
    rw [abs_of_nonneg (by linarith), abs_of_nonneg (by linarith)]
    linarith
  · rw [min_eq_left h1, min_eq_left h2]
    simp [abs_nonneg]

theorem detectEdges_congr (g g' : ℕ → ℕ) (w h : ℕ)
    (hag : ∀ i, i < w * h → g i = g' i) :
    detectEdges g w h = detectEdges g' w h := by
  unfold detectEdges
  apply List.map_congr_left
  intro idx hidx
  have hidxlt : idx < w * h := List.mem_range.mp hidx
  by_cases hcond : 1 ≤ idx % w ∧ idx % w + 1 < w ∧ 1 ≤ idx / w ∧ idx / w + 1 < h
  · rw [if_pos hcond, if_pos hcond]
    obtain ⟨hx1, hx2, hy1, hy2⟩ := hcond
    set x := idx % w with hxd
    set y := idx / w with hyd
    have hwpos : 0 < w := by omega
    have hbound : ∀ a b : ℕ, a + 1 ≤ h → b < w → a * w + b < w * h := by
      intro a b ha hb
      calc a * w + b < a * w + w := by omega
        _ = (a + 1) * w := by ring
        _ ≤ h * w := Nat.mul_le_mul_right w ha
        _ = w * h := Nat.mul_comm h w
    have e1 := hag ((y-1)*w + (x-1)) (hbound _ _ (by omega) (by omega))
    have e2 := hag (y*w + (x-1)) (hbound _ _ (by omega) (by omega))
    have e3 := hag ((y+1)*w + (x-1)) (hbound _ _ (by omega) (by omega))
    have e4 := hag ((y-1)*w + (x+1)) (hbound _ _ (by omega) (by omega))
    have e5 := hag (y*w + (x+1)) (hbound _ _ (by omega) (by omega))
    have e6 := hag ((y+1)*w + (x+1)) (hbound _ _ (by omega) (by omega))
    have e7 := hag ((y-1)*w + x) (hbound _ _ (by omega) (by omega))
    have e8 := hag ((y+1)*w + x) (hbound _ _ (by omega) (by omega))
    unfold edgeMagnitude sobelGx sobelGy
    rw [e1, e2, e3, e4, e5, e6, e7, e8]
  · rw [if_neg hcond, if_neg hcond]

/-- Claim C7: the edge map has the dimensions of the input, the outermost border
is zero, every interior pixel stores the Sobel magnitude rounded to the
nearest byte and clamped at 255 (within one half of the real clamped
magnitude), a 1 by 1 input yields the all-zero map, and the output reads
only in-bounds pixels of the grayscale input. -/
theorem edge_detector_spec (g : ℕ → ℕ) (w h : ℕ) :
    (detectEdges g w h).length = w * h ∧
    (∀ x y : ℕ, x < w → y < h → (x = 0 ∨ y = 0 ∨ x = w - 1 ∨ y = h - 1) →
      (detectEdges g w h).getD (y * w + x) 0 = 0) ∧
    (∀ x y : ℕ, 1 ≤ x → x + 1 < w → 1 ≤ y → y + 1 < h →
      (detectEdges g w h).getD (y * w + x) 0 = edgeMagnitude g w x y ∧
      edgeMagnitude g w x y
        = min 255 (natSqrtNearest
            ((sobelGx g w x y).natAbs ^ 2 + (sobelGy g w x y).natAbs ^ 2)) ∧
      edgeMagnitude g w x y ≤ 255) ∧
    (∀ S : ℕ, |((min 255 (natSqrtNearest S) : ℕ) : ℝ) - min 255 (Real.sqrt S)| ≤ 1/2) ∧
    detectEdges g 1 1 = [0] ∧
    (∀ g' : ℕ → ℕ, (∀ i, i < w * h → g i = g' i) →
      detectEdges g w h = detectEdges g' w h) := by
  have hmod : ∀ x y : ℕ, x < w → (y * w + x) % w = x := by
    intro x y hx
    rw [Nat.add_comm, Nat.add_mul_mod_self_right, Nat.mod_eq_of_lt hx]
  have hdiv : ∀ x y : ℕ, x < w → (y * w + x) / w = y := by
    intro x y hx
    rw [Nat.add_comm, Nat.add_mul_div_right _ _ (by omega), Nat.div_eq_of_lt hx]
    omega
  have hidxlt : ∀ x y : ℕ, x < w → y < h → y * w + x < w * h := by
    intro x y hx hy
    calc y * w + x < y * w + w := by omega
      _ = (y + 1) * w := by ring
      _ ≤ h * w := Nat.mul_le_mul_right w (by omega)
      _ = w * h := Nat.mul_comm h w
  refine ⟨by simp [detectEdges], ?_, ?_, ?_, rfl, fun g' => detectEdges_congr g g' w h⟩
  · intro x y hx hy hborder
    unfold detectEdges
    rw [List.getD_eq_getElem?_getD, List.getElem?_map, List.getElem?_range (hidxlt x y hx hy)]
    simp only [Option.map_some', Option.getD_some]
    rw [if_neg]
    rw [hmod x y hx, hdiv x y hx]
    omega
  · intro x y hx1 hx2 hy1 hy2
    refine ⟨?_, rfl, Nat.min_le_left 255 _⟩
    unfold detectEdges
    rw [List.getD_eq_getElem?_getD, List.getElem?_map,
      List.getElem?_range (hidxlt x y (by omega) (by omega))]
    simp only [Option.map_some', Option.getD_some]
    rw [hmod x y (by omega), hdiv x y (by omega)]
    rw [if_pos ⟨hx1, hx2, hy1, hy2⟩]
  · intro S
    have hle : ((min 255 (natSqrtNearest S) : ℕ) : ℝ) = min 255 (natSqrtNearest S : ℝ) := by
      push_cast
      rfl
    rw [hle]
    calc |min (255:ℝ) (natSqrtNearest S) - min 255 (Real.sqrt S)|
        ≤ |(natSqrtNearest S : ℝ) - Real.sqrt S| := min_sub_min_abs_le 255 _ _
      _ ≤ 1/2 := natSqrtNearest_close S

/-- Concrete instance of edge_detector_spec on a 3 by 3 input. -/
theorem edge_detector_spec_witness :
    (detectEdges (fun i => i) 3 3).length = 9 ∧
    (detectEdges (fun i => i) 3 3).getD (0 * 3 + 0) 0 = 0 ∧
    (detectEdges (fun i => i) 3 3).getD (1 * 3 + 1) 0 = edgeMagnitude (fun i => i) 3 1 1 ∧
    detectEdges (fun i => i) 1 1 = [0] :=
  ⟨(edge_detector_spec (fun i => i) 3 3).1,
   (edge_detector_spec (fun i => i) 3 3).2.1 0 0 (by norm_num) (by norm_num) (Or.inl rfl),
   ((edge_detector_spec (fun i => i) 3 3).2.2.1 1 1 (by norm_num) (by norm_num)
      (by norm_num) (by norm_num)).1,
   (edge_detector_spec (fun i => i) 3 3).2.2.2.2.1⟩

/-! ## Claim C9: RGB to HSL to RGB round trip -/

theorem hue2rgb_eval1 (p q t : ℚ) (h0 : 0 ≤ t) (h1 : t < 1/6) :
    hue2rgb p q t = p + (q - p) * 6 * t := by
  simp only [hue2rgb]
  rw [if_neg (show ¬ t < 0 by linarith), if_neg (show ¬ (1:ℚ) < t by linarith),
    if_pos h1]

theorem hue2rgb_eval2 (p q t : ℚ) (h0 : 1/6 ≤ t) (h1 : t < 1/2) :
    hue2rgb p q t = q := by
  simp only [hue2rgb]
  rw [if_neg (show ¬ t < 0 by linarith), if_neg (show ¬ (1:ℚ) < t by linarith),
    if_neg (show ¬ t < 1/6 by linarith), if_pos h1]

theorem hue2rgb_eval3 (p q t : ℚ) (h0 : 1/2 ≤ t) (h1 : t < 2/3) :
    hue2rgb p q t = p + (q - p) * (2/3 - t) * 6 := by
  simp only [hue2rgb]
  rw [if_neg (show ¬ t < 0 by linarith), if_neg (show ¬ (1:ℚ) < t by linarith),
    if_neg (show ¬ t < 1/6 by linarith), if_neg (show ¬ t < 1/2 by linarith),
    if_pos h1]

theorem hue2rgb_eval4 (p q t : ℚ) (h0 : 2/3 ≤ t) (h1 : t ≤ 1) :
    hue2rgb p q t = p := by
  simp only [hue2rgb]
  rw [if_neg (show ¬ t < 0 by linarith), if_neg (show ¬ (1:ℚ) < t by linarith),
    if_neg (show ¬ t < 1/6 by linarith), if_neg (show ¬ t < 1/2 by linarith),
    if_neg (show ¬ t < 2/3 by linarith)]

theorem hue2rgb_wrap_neg (p q t : ℚ) (h0 : -1 ≤ t) (h1 : t < 0) :
    hue2rgb p q t = hue2rgb p q (t + 1) := by
  simp only [hue2rgb]
  rw [if_pos (show t < 0 from h1), if_neg (show ¬ t + 1 < 0 by linarith),
    if_neg (show ¬ (1:ℚ) < t + 1 by linarith)]

theorem hue2rgb_wrap_pos (p q t : ℚ) (h0 : 1 < t) (h1 : t ≤ 2) :
    hue2rgb p q t = hue2rgb p q (t - 1) := by
  simp only [hue2rgb]
  rw [if_neg (show ¬ t < 0 by linarith), if_pos (show (1:ℚ) < t from h0),
    if_neg (show ¬ t - 1 < 0 by linarith), if_neg (show ¬ (1:ℚ) < t - 1 by linarith)]

theorem jsRound_natCast (n : ℕ) : jsRound (n : ℚ) = n := by
  unfold jsRound
  rw [Int.floor_eq_iff]
  constructor
  · push_cast
    linarith
  · push_cast
    linarith

theorem jsRound_chan (v : ℕ) : jsRound ((v : ℚ) / 255 * 255) = v := by
  rw [div_mul_cancel₀ _ (by norm_num : (255:ℚ) ≠ 0)]
  exact jsRound_natCast v

theorem hslToRgb_eval_zero (h0 l0 : ℚ) :
    hslToRgb h0 0 (l0 * 100)
      = (jsRound (l0 * 255), jsRound (l0 * 255), jsRound (l0 * 255)) := by
  simp only [hslToRgb]
  rw [zero_div, mul_div_cancel_right₀ _ (by norm_num : (100:ℚ) ≠ 0)]
  rw [if_pos rfl]

theorem hslToRgb_eval_pos (h0 s0 l0 : ℚ) (hs : s0 ≠ 0) :
    hslToRgb (h0 * 360) (s0 * 100) (l0 * 100)
      = (jsRound (hue2rgb
            (2 * l0 - (if l0 < 1/2 then l0 * (1 + s0) else l0 + s0 - l0 * s0))
            (if l0 < 1/2 then l0 * (1 + s0) else l0 + s0 - l0 * s0) (h0 + 1/3) * 255),
         jsRound (hue2rgb
            (2 * l0 - (if l0 < 1/2 then l0 * (1 + s0) else l0 + s0 - l0 * s0))
            (if l0 < 1/2 then l0 * (1 + s0) else l0 + s0 - l0 * s0) h0 * 255),
         jsRound (hue2rgb
            (2 * l0 - (if l0 < 1/2 then l0 * (1 + s0) else l0 + s0 - l0 * s0))
            (if l0 < 1/2 then l0 * (1 + s0) else l0 + s0 - l0 * s0) (h0 - 1/3) * 255)) := by
  simp only [hslToRgb]
  rw [mul_div_cancel_right₀ _ (by norm_num : (360:ℚ) ≠ 0),
    mul_div_cancel_right₀ _ (by norm_num : (100:ℚ) ≠ 0),
    mul_div_cancel_right₀ _ (by norm_num : (100:ℚ) ≠ 0)]
  rw [if_neg hs]

theorem hsl_qp (mx mn s : ℚ) (h0 : 0 ≤ mn) (h1 : mn < mx) (h2 : mx ≤ 1)
    (hs : s = if 1/2 < (mx + mn) / 2 then (mx - mn) / (2 - mx - mn)
              else (mx - mn) / (mx + mn)) :
    (if (mx + mn) / 2 < 1/2 then ((mx + mn) / 2) * (1 + s)
     else (mx + mn) / 2 + s - ((mx + mn) / 2) * s) = mx := by
  have hsum0 : 0 < mx + mn := by linarith
  have hden0 : 0 < 2 - mx - mn := by linarith
  rcases lt_trichotomy ((mx + mn)/2) (1/2 : ℚ) with hl | hl | hl
  · rw [if_pos hl, hs, if_neg (by linarith)]
    field_simp
    ring
  · rw [if_neg (by linarith), hs, if_neg (by linarith)]
    have hsum1 : mx + mn = 1 := by linarith
    rw [hsum1]
    rw [div_one]
    linarith
  · rw [if_neg (by linarith), hs, if_pos hl]
    field_simp
    ring

set_option maxHeartbeats 2000000 in
theorem rgb_hsl_roundtrip_exact (r g b : ℕ) (hr : r ≤ 255) (hg : g ≤ 255) (hb : b ≤ 255) :
    hslToRgb (rgbToHsl (r : ℚ) (g : ℚ) (b : ℚ)).1 (rgbToHsl (r : ℚ) (g : ℚ) (b : ℚ)).2.1
        (rgbToHsl (r : ℚ) (g : ℚ) (b : ℚ)).2.2
      = ((r : ℤ), (g : ℤ), (b : ℤ)) := by
  have hx0 : (0:ℚ) ≤ (r:ℚ)/255 := by positivity
  have hy0 : (0:ℚ) ≤ (g:ℚ)/255 := by positivity
  have hz0 : (0:ℚ) ≤ (b:ℚ)/255 := by positivity
  have hx1 : (r:ℚ)/255 ≤ 1 := by
    rw [div_le_one (by norm_num : (0:ℚ) < 255)]
    exact_mod_cast hr
  have hy1 : (g:ℚ)/255 ≤ 1 := by
    rw [div_le_one (by norm_num : (0:ℚ) < 255)]
    exact_mod_cast hg
  have hz1 : (b:ℚ)/255 ≤ 1 := by
    rw [div_le_one (by norm_num : (0:ℚ) < 255)]
    exact_mod_cast hb
  set x : ℚ := (r:ℚ)/255 with hxdef
  set y : ℚ := (g:ℚ)/255 with hydef
  set z : ℚ := (b:ℚ)/255 with hzdef
  set mx : ℚ := max x (max y z) with hmxdef
  set mn : ℚ := min x (min y z) with hmndef
  have hmnx : mn ≤ x := min_le_left _ _
  have hmny : mn ≤ y := le_trans (min_le_right x _) (min_le_left _ _)
  have hmnz : mn ≤ z := le_trans (min_le_right x _) (min_le_right _ _)
  have hmxx : x ≤ mx := le_max_left _ _
  have hmxy : y ≤ mx := le_trans (le_max_left y z) (le_max_right x _)
  have hmxz : z ≤ mx := le_trans (le_max_right y z) (le_max_right x _)
  have hmn0 : 0 ≤ mn := le_min hx0 (le_min hy0 hz0)
  have hmx1 : mx ≤ 1 := max_le hx1 (max_le hy1 hz1)
  have hout : ∀ (v : ℕ) (w : ℚ), w = (v:ℚ)/255 → jsRound (w * 255) = v := by
    intro v w hw
    rw [hw]
    exact jsRound_chan v
  by_cases heq : mx = mn
  · -- all three channels coincide, the saturation-zero branch
    have hxeq : x = mn := le_antisymm (heq ▸ hmxx) hmnx
    have hyeq : y = mn := le_antisymm (heq ▸ hmxy) hmny
    have hzeq : z = mn := le_antisymm (heq ▸ hmxz) hmnz
    have hfst : (rgbToHsl (r : ℚ) (g : ℚ) (b : ℚ)).1 = 0 := by
      simp only [rgbToHsl]
      rw [← hxdef, ← hydef, ← hzdef, ← hmxdef, ← hmndef, if_pos heq]
    have hsnd : (rgbToHsl (r : ℚ) (g : ℚ) (b : ℚ)).2.1 = 0 := by
      simp only [rgbToHsl]
      rw [← hxdef, ← hydef, ← hzdef, ← hmxdef, ← hmndef, if_pos heq]
    have hthd : (rgbToHsl (r : ℚ) (g : ℚ) (b : ℚ)).2.2 = ((mx + mn)/2) * 100 := by
      simp only [rgbToHsl]
      rw [← hxdef, ← hydef, ← hzdef, ← hmxdef, ← hmndef, if_pos heq]
    rw [hfst, hsnd, hthd, hslToRgb_eval_zero]
    have hl : (mx + mn)/2 = x := by
      rw [hxeq, heq]
      ring
    rw [hl, Prod.mk.injEq, Prod.mk.injEq]
    refine ⟨hout r x hxdef, ?_, ?_⟩
    · rw [show x = y by rw [hxeq, hyeq]]
      exact hout g y hydef
    · rw [show x = z by rw [hxeq, hzeq]]
      exact hout b z hzdef
  · -- chromatic case
    have hlt : mn < mx := lt_of_le_of_ne (le_trans hmnx hmxx) (fun hh => heq hh.symm)
    have hd0 : (0:ℚ) < mx - mn := by linarith
    set d : ℚ := mx - mn with hddef
    set s : ℚ := if 1/2 < (mx + mn)/2 then d / (2 - mx - mn) else d / (mx + mn) with hsdef
    have hs0 : (0:ℚ) < s := by
      rw [hsdef]
      split_ifs
      · exact div_pos hd0 (by linarith)
      · exact div_pos hd0 (by linarith)
    have hsnd : (rgbToHsl (r : ℚ) (g : ℚ) (b : ℚ)).2.1 = s * 100 := by
      simp only [rgbToHsl]
      rw [← hxdef, ← hydef, ← hzdef, ← hmxdef, ← hmndef, if_neg heq]
    have hthd : (rgbToHsl (r : ℚ) (g : ℚ) (b : ℚ)).2.2 = ((mx + mn)/2) * 100 := by
      simp only [rgbToHsl]
      rw [← hxdef, ← hydef, ← hzdef, ← hmxdef, ← hmndef, if_neg heq]
    have hqp := hsl_qp mx mn s hmn0 hlt hmx1 hsdef
    by_cases hmx : mx = x
    · have hyx : y ≤ x := hmx ▸ hmxy
      have hzx : z ≤ x := hmx ▸ hmxz
      by_cases hyz : y < z
      · -- red is the maximum and blue exceeds green
        have hmneqy : mn = y := by
          rw [hmndef, min_eq_left (le_of_lt hyz), min_eq_right hyx]
        have hfst : (rgbToHsl (r : ℚ) (g : ℚ) (b : ℚ)).1 = ((y - z)/d + 6)/6 * 360 := by
          simp only [rgbToHsl]
          rw [← hxdef, ← hydef, ← hzdef, ← hmxdef, ← hmndef, if_neg heq, ← hddef,
            if_pos hmx, if_pos hyz]
        have hn1 : (y - z)/d < 0 := div_neg_of_neg_of_pos (by linarith) hd0
        have hn0 : (-1:ℚ) ≤ (y - z)/d := by
          rw [le_div_iff₀ hd0, hddef]
          linarith [hmneqy.le, hmneqy.symm.le]
        rw [hfst, hsnd, hthd, hslToRgb_eval_pos _ _ _ (ne_of_gt hs0), hqp,
          show 2 * ((mx + mn)/2) - mx = mn from by ring,
          Prod.mk.injEq, Prod.mk.injEq]
        refine ⟨?_, ?_, ?_⟩
        · -- red channel
          rw [hue2rgb_wrap_pos _ _ _ (by linarith) (by linarith),
            hue2rgb_eval2 _ _ _ (by linarith) (by linarith), hmx]
          exact hout r x hxdef
        · -- green channel
          rw [hue2rgb_eval4 _ _ _ (by linarith) (by linarith), hmneqy]
          exact hout g y hydef
        · -- blue channel
          have hbid : mn + (mx - mn) * (2/3 - (((y - z)/d + 6)/6 - 1/3)) * 6 = z := by
            rw [hmneqy, hddef]
            have hdne : mx - mn ≠ 0 := ne_of_gt hd0
            field_simp
            rw [hmneqy]
            ring
          rw [hue2rgb_eval3 _ _ _ (by linarith) (by linarith), hbid]
          exact hout b z hzdef
      · -- red is the maximum and green is at least blue
        have hzy : z ≤ y := le_of_not_lt hyz
        have hmneqz : mn = z := by
          rw [hmndef, min_eq_right hzy, min_eq_right hzx]
        have hfst : (rgbToHsl (r : ℚ) (g : ℚ) (b : ℚ)).1 = ((y - z)/d + 0)/6 * 360 := by
          simp only [rgbToHsl]
          rw [← hxdef, ← hydef, ← hzdef, ← hmxdef, ← hmndef, if_neg heq, ← hddef,
            if_pos hmx, if_neg hyz]
        have hn0 : (0:ℚ) ≤ (y - z)/d := div_nonneg (by linarith) (le_of_lt hd0)
        have hn1 : (y - z)/d ≤ 1 := by
          rw [div_le_one hd0, hddef]
          linarith [hmneqz.symm.le, hmneqz.le]
        rw [hfst, hsnd, hthd, hslToRgb_eval_pos _ _ _ (ne_of_gt hs0), hqp,
          show 2 * ((mx + mn)/2) - mx = mn from by ring,
          Prod.mk.injEq, Prod.mk.injEq]
        refine ⟨?_, ?_, ?_⟩
        · -- red channel
          by_cases hcr : ((y - z)/d + 0)/6 + 1/3 < 1/2
          · rw [hue2rgb_eval2 _ _ _ (by linarith) hcr, hmx]
            exact hout r x hxdef
          · rw [hue2rgb_eval3 _ _ _ (by linarith) (by linarith),
              show ((y - z)/d + 0)/6 + 1/3 = 1/2 from le_antisymm (by linarith) (by linarith),
              show mn + (mx - mn) * (2/3 - 1/2) * 6 = mx from by ring, hmx]
            exact hout r x hxdef
        · -- green channel
          by_cases hcg : ((y - z)/d + 0)/6 < 1/6
          · have hgid : mn + (mx - mn) * 6 * (((y - z)/d + 0)/6) = y := by
              rw [hmneqz, hddef]
              have hdne : mx - mn ≠ 0 := ne_of_gt hd0
              field_simp
              rw [hmneqz]
              ring
            rw [hue2rgb_eval1 _ _ _ (by linarith) hcg, hgid]
            exact hout g y hydef
          · have hH6 : ((y - z)/d + 0)/6 = 1/6 :=
              le_antisymm (by linarith) (le_of_not_lt hcg)
            have h1 : (y - z)/d = 1 := by linarith
            have hyd : y - z = d := (div_eq_one_iff_eq (ne_of_gt hd0)).mp h1
            have hymx : y = mx := by
              rw [hddef] at hyd
              linarith [hmneqz.le, hmneqz.symm.le]
            rw [hue2rgb_eval2 _ _ _ (by linarith) (by linarith), ← hymx]
            exact hout g y hydef
        · -- blue channel
          rw [hue2rgb_wrap_neg _ _ _ (by linarith) (by linarith),
            hue2rgb_eval4 _ _ _ (by linarith) (by linarith), hmneqz]
          exact hout b z hzdef
    · by_cases hmy : mx = y
      · -- green is the strict maximum
        have hxlt : x < mx := lt_of_le_of_ne hmxx (fun hh => hmx hh.symm)
        have hzy : z ≤ y := hmy ▸ hmxz
        have hmneq : mn = min x z := by
          rw [hmndef, min_eq_right hzy]
        have hfst : (rgbToHsl (r : ℚ) (g : ℚ) (b : ℚ)).1 = ((z - x)/d + 2)/6 * 360 := by
          simp only [rgbToHsl]
          rw [← hxdef, ← hydef, ← hzdef, ← hmxdef, ← hmndef, if_neg heq, ← hddef,
            if_neg hmx, if_pos hmy]
        have hn1 : (z - x)/d ≤ 1 := by
          rw [div_le_one hd0, hddef]
          linarith
        have hn0 : (-1:ℚ) < (z - x)/d := by
          rw [lt_div_iff₀ hd0, hddef]
          linarith
        rw [hfst, hsnd, hthd, hslToRgb_eval_pos _ _ _ (ne_of_gt hs0), hqp,
          show 2 * ((mx + mn)/2) - mx = mn from by ring,
          Prod.mk.injEq, Prod.mk.injEq]
        refine ⟨?_, ?_, ?_⟩
        · -- red channel
          by_cases hzx : z < x
          · have h6neg : (z - x)/d < 0 := div_neg_of_neg_of_pos (by linarith) hd0
            have hmnz' : mn = z := by rw [hmneq, min_eq_right (le_of_lt hzx)]
            have hrid : mn + (mx - mn) * (2/3 - (((z - x)/d + 2)/6 + 1/3)) * 6 = x := by
              rw [hmnz', hddef]
              have hdne : mx - mn ≠ 0 := ne_of_gt hd0
              field_simp
              rw [hmnz']
              ring
            rw [hue2rgb_eval3 _ _ _ (by linarith) (by linarith), hrid]
            exact hout r x hxdef
          · have h6nn : (0:ℚ) ≤ (z - x)/d := div_nonneg (by linarith [le_of_not_lt hzx]) (le_of_lt hd0)
            have hmnx' : mn = x := by rw [hmneq, min_eq_left (le_of_not_lt hzx)]
            rw [hue2rgb_eval4 _ _ _ (by linarith) (by linarith), hmnx']
            exact hout r x hxdef
        · -- green channel
          by_cases hcg : ((z - x)/d + 2)/6 < 1/2
          · rw [hue2rgb_eval2 _ _ _ (by linarith) hcg, hmy]
            exact hout g y hydef
          · rw [hue2rgb_eval3 _ _ _ (by linarith) (by linarith),
              show ((z - x)/d + 2)/6 = 1/2 from le_antisymm (by linarith) (le_of_not_lt hcg),
              show mn + (mx - mn) * (2/3 - 1/2) * 6 = mx from by ring, hmy]
            exact hout g y hydef
        · -- blue channel
          by_cases hzx : z < x
          · have h6neg : (z - x)/d < 0 := div_neg_of_neg_of_pos (by linarith) hd0
            have hmnz' : mn = z := by rw [hmneq, min_eq_right (le_of_lt hzx)]
            rw [hue2rgb_wrap_neg _ _ _ (by linarith) (by linarith),
              hue2rgb_eval4 _ _ _ (by linarith) (by linarith), hmnz']
            exact hout b z hzdef
          · have h6nn : (0:ℚ) ≤ (z - x)/d := div_nonneg (by linarith [le_of_not_lt hzx]) (le_of_lt hd0)
            have hmnx' : mn = x := by rw [hmneq, min_eq_left (le_of_not_lt hzx)]
            by_cases hcb : ((z - x)/d + 2)/6 - 1/3 < 1/6
            · have hbid : mn + (mx - mn) * 6 * (((z - x)/d + 2)/6 - 1/3) = z := by
                rw [hmnx', hddef]
                have hdne : mx - mn ≠ 0 := ne_of_gt hd0
                field_simp
                rw [hmnx']
                ring
              rw [hue2rgb_eval1 _ _ _ (by linarith) hcb, hbid]
              exact hout b z hzdef
            · have ht6 : ((z - x)/d + 2)/6 - 1/3 = 1/6 :=
                le_antisymm (by linarith) (le_of_not_lt hcb)
              have h1 : (z - x)/d = 1 := by linarith
              have hzd : z - x = d := (div_eq_one_iff_eq (ne_of_gt hd0)).mp h1
              have hzmx : z = mx := by
                rw [hddef] at hzd
                linarith [hmnx'.le, hmnx'.symm.le]
              rw [hue2rgb_eval2 _ _ _ (by linarith) (by linarith), ← hzmx]
              exact hout b z hzdef
      · -- blue is the strict maximum
        have hxlt : x < mx := lt_of_le_of_ne hmxx (fun hh => hmx hh.symm)
        have hylt : y < mx := lt_of_le_of_ne hmxy (fun hh => hmy hh.symm)
        have hmz : mx = z := by
          have h0 := max_choice x (max y z)
          rw [← hmxdef] at h0
          rcases h0 with h0 | h0
          · exact absurd h0 hmx
          · have h1 := max_choice y z
            rw [← h0] at h1
            rcases h1 with h1 | h1
            · exact absurd h1 hmy
            · exact h1
        have hmneqxy : mn = min x y := by
          rw [hmndef, min_comm y z, min_eq_right (show y ≤ z from by
            rw [← hmz]; exact le_of_lt hylt)]
        have hfst : (rgbToHsl (r : ℚ) (g : ℚ) (b : ℚ)).1 = ((x - y)/d + 4)/6 * 360 := by
          simp only [rgbToHsl]
          rw [← hxdef, ← hydef, ← hzdef, ← hmxdef, ← hmndef, if_neg heq, ← hddef,
            if_neg hmx, if_neg hmy]
        have hn1 : (x - y)/d < 1 := by
          rw [div_lt_one hd0, hddef]
          linarith
        have hn0 : (-1:ℚ) < (x - y)/d := by
          rw [lt_div_iff₀ hd0, hddef]
          linarith
        rw [hfst, hsnd, hthd, hslToRgb_eval_pos _ _ _ (ne_of_gt hs0), hqp,
          show 2 * ((mx + mn)/2) - mx = mn from by ring,
          Prod.mk.injEq, Prod.mk.injEq]
        refine ⟨?_, ?_, ?_⟩
        · -- red channel
          by_cases hxy : y < x
          · have h6pos : (0:ℚ) < (x - y)/d := div_pos (by linarith) hd0
            have hmny' : mn = y := by rw [hmneqxy, min_eq_right (le_of_lt hxy)]
            have hrid : mn + (mx - mn) * 6 * (((x - y)/d + 4)/6 + 1/3 - 1) = x := by
              rw [hmny', hddef]
              have hdne : mx - mn ≠ 0 := ne_of_gt hd0
              field_simp
              rw [hmny']
              ring
            rw [hue2rgb_wrap_pos _ _ _ (by linarith) (by linarith),
              hue2rgb_eval1 _ _ _ (by linarith) (by linarith), hrid]
            exact hout r x hxdef
          · have h6np : (x - y)/d ≤ 0 := by
              rw [div_nonpos_iff]
              right
              exact ⟨by linarith [le_of_not_lt hxy], by linarith⟩
            have hmnx' : mn = x := by rw [hmneqxy, min_eq_left (le_of_not_lt hxy)]
            rw [hue2rgb_eval4 _ _ _ (by linarith) (by linarith), hmnx']
            exact hout r x hxdef
        · -- green channel
          by_cases hxy : x < y
          · have h6neg : (x - y)/d < 0 := div_neg_of_neg_of_pos (by linarith) hd0
            have hmnx' : mn = x := by rw [hmneqxy, min_eq_left (le_of_lt hxy)]
            have hgid : mn + (mx - mn) * (2/3 - ((x - y)/d + 4)/6) * 6 = y := by
              rw [hmnx', hddef]
              have hdne : mx - mn ≠ 0 := ne_of_gt hd0
              field_simp
              rw [hmnx']
              ring
            rw [hue2rgb_eval3 _ _ _ (by linarith) (by linarith), hgid]
            exact hout g y hydef
          · have h6nn : (0:ℚ) ≤ (x - y)/d :=
              div_nonneg (by linarith [le_of_not_lt hxy]) (le_of_lt hd0)
            have hmny' : mn = y := by rw [hmneqxy, min_eq_right (le_of_not_lt hxy)]
            rw [hue2rgb_eval4 _ _ _ (by linarith) (by linarith), hmny']
            exact hout g y hydef
        · -- blue channel
          rw [hue2rgb_eval2 _ _ _ (by linarith) (by linarith), hmz]
          exact hout b z hzdef

/-- Claim C9: converting an RGB triple with integer channels between 0 and 255 to
HSL and back reproduces every channel within 1; in exact rational arithmetic
the round trip is in fact exact. -/
theorem hsl_roundtrip_spec (r g b : ℕ) (hr : r ≤ 255) (hg : g ≤ 255) (hb : b ≤ 255) :
    hslToRgb (rgbToHsl (r : ℚ) (g : ℚ) (b : ℚ)).1 (rgbToHsl (r : ℚ) (g : ℚ) (b : ℚ)).2.1
        (rgbToHsl (r : ℚ) (g : ℚ) (b : ℚ)).2.2 = ((r : ℤ), (g : ℤ), (b : ℤ)) ∧
    |(hslToRgb (rgbToHsl (r : ℚ) (g : ℚ) (b : ℚ)).1 (rgbToHsl (r : ℚ) (g : ℚ) (b : ℚ)).2.1
        (rgbToHsl (r : ℚ) (g : ℚ) (b : ℚ)).2.2).1 - (r : ℤ)| ≤ 1 ∧
    |(hslToRgb (rgbToHsl (r : ℚ) (g : ℚ) (b : ℚ)).1 (rgbToHsl (r : ℚ) (g : ℚ) (b : ℚ)).2.1
        (rgbToHsl (r : ℚ) (g : ℚ) (b : ℚ)).2.2).2.1 - (g : ℤ)| ≤ 1 ∧
    |(hslToRgb (rgbToHsl (r : ℚ) (g : ℚ) (b : ℚ)).1 (rgbToHsl (r : ℚ) (g : ℚ) (b : ℚ)).2.1
        (rgbToHsl (r : ℚ) (g : ℚ) (b : ℚ)).2.2).2.2 - (b : ℤ)| ≤ 1 := by
  have h := rgb_hsl_roundtrip_exact r g b hr hg hb
  refine ⟨h, ?_, ?_, ?_⟩ <;> rw [h] <;> simp

/-- Concrete instance of hsl_roundtrip_spec on the color 10 200 30. -/
theorem hsl_roundtrip_spec_witness :
    hslToRgb (rgbToHsl ((10:ℕ) : ℚ) ((200:ℕ) : ℚ) ((30:ℕ) : ℚ)).1
        (rgbToHsl ((10:ℕ) : ℚ) ((200:ℕ) : ℚ) ((30:ℕ) : ℚ)).2.1
        (rgbToHsl ((10:ℕ) : ℚ) ((200:ℕ) : ℚ) ((30:ℕ) : ℚ)).2.2
      = (((10:ℕ) : ℤ), ((200:ℕ) : ℤ), ((30:ℕ) : ℤ)) :=
  (hsl_roundtrip_spec 10 200 30 (by norm_num) (by norm_num) (by norm_num)).1

end AIModels
